import Mathlib

/-!
Verification of a linked hash map: a hash index combined with a doubly
linked ordering chain built from shared mutable nodes.

The heap of reference-counted nodes is modelled as a list of nodes indexed
by allocation address; `heapGetL` reads a node and `heapSet` mutates one in
place.  The hash index is modelled as an association list with unique keys.
All definitions below mirror the source operations; theorems establish the
specified properties of insert, get, remove and forward iteration.
-/

set_option maxHeartbeats 1000000

/-- Model of the node enum: `Nil` is the empty sentinel, `Cons prev pair next`
holds a key-value pair and the heap addresses of the previous and next node. -/
inductive DoublyLinkedList (K V : Type) where
  | Nil : DoublyLinkedList K V
  | Cons (prev : Nat) (pair : K × V) (next : Nat) : DoublyLinkedList K V
  deriving DecidableEq

/-- Read the node stored at address `a`; out-of-range reads default to `Nil`
(they never occur on reachable states). -/
def heapGetL {K V : Type} : List (DoublyLinkedList K V) → Nat → DoublyLinkedList K V
  | [], _ => DoublyLinkedList.Nil
  | x :: _, 0 => x
  | _ :: h, n + 1 => heapGetL h n

/-- Overwrite the node stored at address `a` (in-place mutation through a
shared reference); out of range, the heap is unchanged. -/
def heapSet {K V : Type} : List (DoublyLinkedList K V) → Nat → DoublyLinkedList K V → List (DoublyLinkedList K V)
  | [], _, _ => []
  | _ :: h, 0, y => y :: h
  | x :: h, n + 1, y => x :: heapSet h n y

/-- Lookup in the association-list model of the hash index. -/
def assocGet {K : Type} [DecidableEq K] : List (K × Nat) → K → Option Nat
  | [], _ => none
  | (k', a) :: rest, k => if k' = k then some a else assocGet rest k

/-- Removal from the association-list model of the hash index. -/
def assocRemove {K : Type} [DecidableEq K] : List (K × Nat) → K → List (K × Nat)
  | [], _ => []
  | (k', a) :: rest, k =>
      if k' = k then assocRemove rest k else (k', a) :: assocRemove rest k

/-- Insertion into the association-list model of the hash index, overwriting
any prior entry for the key (hash-map semantics: keys stay unique). -/
def assocInsert {K : Type} [DecidableEq K] (l : List (K × Nat)) (k : K) (a : Nat) : List (K × Nat) :=
  (k, a) :: assocRemove l k

/-- Model of the container: the node heap plus the fields of the source
struct: `current_link` (most recent node), `first_link` (earliest node) and
`hashmap` (key to node address). -/
structure LinkedHashMap (K V : Type) where
  heap : List (DoublyLinkedList K V)
  current_link : Nat
  first_link : Nat
  hashmap : List (K × Nat)
  deriving DecidableEq

/-- Model of `LinkedHashMap::new`: one shared `Nil` node at address 0,
with `current_link` and `first_link` both referring to it. -/
def LinkedHashMap.new {K V : Type} : LinkedHashMap K V :=
  { heap := [DoublyLinkedList.Nil], current_link := 0, first_link := 0, hashmap := [] }

/-- Model of `LinkedHashMap::insert`: build a new node whose `prev` is the
current link and whose `next` is the old chain end (the shared `Nil` when the
map is empty), register it in the index, and when the map was non-empty
rewrite the old last node's `next` in place. -/
def LinkedHashMap.insert {K V : Type} [DecidableEq K]
    (m : LinkedHashMap K V) (key : K) (val : V) : LinkedHashMap K V :=
  let prev_link := m.current_link
  match heapGetL m.heap m.current_link with
  | DoublyLinkedList.Cons cp cpair chain_end =>
      let addr := m.heap.length
      let heap1 := m.heap ++ [DoublyLinkedList.Cons prev_link (key, val) chain_end]
      let heap2 := heapSet heap1 m.current_link (DoublyLinkedList.Cons cp cpair addr)
      { heap := heap2, current_link := addr, first_link := m.first_link,
        hashmap := assocInsert m.hashmap key addr }
  | DoublyLinkedList.Nil =>
      let addr := m.heap.length
      { heap := m.heap ++ [DoublyLinkedList.Cons prev_link (key, val) m.current_link],
        current_link := addr, first_link := addr,
        hashmap := assocInsert m.hashmap key addr }

/-- Model of `LinkedHashMap::get`: index lookup, then read the value field
of the referenced node; an absent key gives `none`. -/
def LinkedHashMap.get {K V : Type} [DecidableEq K]
    (m : LinkedHashMap K V) (key : K) : Option V :=
  match assocGet m.hashmap key with
  | none => none
  | some a =>
      match heapGetL m.heap a with
      | DoublyLinkedList.Cons _ pr _ => some pr.2
      | DoublyLinkedList.Nil => none

/-- Model of `LinkedHashMap::remove`: look the node up in the index, splice
it out of the chain by rewriting its neighbours' links (or the container's
`first_link`/`current_link` when a neighbour is the sentinel), drop the key
from the index, and return the stored value. -/
def LinkedHashMap.remove {K V : Type} [DecidableEq K]
    (m : LinkedHashMap K V) (key : K) : Option V × LinkedHashMap K V :=
  match assocGet m.hashmap key with
  | none => (none, m)
  | some a =>
      match heapGetL m.heap a with
      | DoublyLinkedList.Nil =>
          (none, { m with hashmap := assocRemove m.hashmap key })
      | DoublyLinkedList.Cons prev_link pr next_link =>
          let step1 :=
            match heapGetL m.heap prev_link with
            | DoublyLinkedList.Cons pp ppair _ =>
                (heapSet m.heap prev_link (DoublyLinkedList.Cons pp ppair next_link),
                 m.first_link)
            | DoublyLinkedList.Nil => (m.heap, next_link)
          let step2 :=
            match heapGetL step1.1 next_link with
            | DoublyLinkedList.Cons _ npair nn =>
                (heapSet step1.1 next_link (DoublyLinkedList.Cons prev_link npair nn),
                 false)
            | DoublyLinkedList.Nil => (step1.1, true)
          (some pr.2,
           { heap := step2.1,
             current_link := if step2.2 then prev_link else m.current_link,
             first_link := step1.2,
             hashmap := assocRemove m.hashmap key })

/-- Model of the source `Iterator` struct: it holds a reference (address)
into the live chain. -/
structure Iterator where
  iter_link : Nat
  deriving DecidableEq

/-- Model of `Iterator::next`: on a `Cons` node yield its pair and advance to
the node's `next`; on the sentinel yield nothing and stay put. -/
def Iterator.step {K V : Type} (heap : List (DoublyLinkedList K V)) (it : Iterator) :
    Option (K × V) × Iterator :=
  match heapGetL heap it.iter_link with
  | DoublyLinkedList.Cons _ pr link => (some pr, { iter_link := link })
  | DoublyLinkedList.Nil => (none, it)

/-- Model of `LinkedHashMap::iter`: a fresh cursor at the current first link. -/
def LinkedHashMap.iter {K V : Type} (m : LinkedHashMap K V) : Iterator :=
  { iter_link := m.first_link }

/-- Collect the pairs produced by the iterator starting at address `a`,
with enough fuel to exhaust any acyclic chain. -/
def iterFrom {K V : Type} (heap : List (DoublyLinkedList K V)) : Nat → Nat → List (K × V)
  | _, 0 => []
  | a, fuel + 1 =>
      match heapGetL heap a with
      | DoublyLinkedList.Nil => []
      | DoublyLinkedList.Cons _ pr n => pr :: iterFrom heap n fuel

/-- Full forward iteration of the map, as produced by collecting `iter`. -/
def LinkedHashMap.toList {K V : Type} (m : LinkedHashMap K V) : List (K × V) :=
  iterFrom m.heap m.first_link m.heap.length

/-- Address reached after advancing the iterator `n` times (it stays put on
the sentinel, as `Iterator::next` does). -/
def stepN {K V : Type} (heap : List (DoublyLinkedList K V)) : Nat → Nat → Nat
  | a, 0 => a
  | a, n + 1 =>
      match heapGetL heap a with
      | DoublyLinkedList.Nil => stepN heap a n
      | DoublyLinkedList.Cons _ _ nx => stepN heap nx n

/-- Ghost description of one live chain entry: its heap address, key and value. -/
abbrev ChainEntry (K V : Type) := Nat × K × V

/-- Address of the first entry of a ghost chain (0, the sentinel, if empty). -/
def headAddr {K V : Type} : List (ChainEntry K V) → Nat
  | [] => 0
  | e :: _ => e.1

/-- Address of the last entry of a ghost chain, with default `d` if empty. -/
def lastAddrD {K V : Type} : Nat → List (ChainEntry K V) → Nat
  | d, [] => d
  | _, e :: rest => lastAddrD e.1 rest

/-- The chain structure in `heap` starting at address `a`, with expected
stored predecessor `p`, realises exactly the ghost entries `es` and then
reaches the sentinel at address 0. -/
def chainOK {K V : Type} (heap : List (DoublyLinkedList K V)) : Nat → Nat → List (ChainEntry K V) → Prop
  | _, a, [] => a = 0
  | p, a, e :: rest =>
      a = e.1 ∧ heapGetL heap a = DoublyLinkedList.Cons p e.2 (headAddr rest) ∧
        chainOK heap e.1 (headAddr rest) rest

/-- The pair stored in a node, if any. -/
def pairView {K V : Type} : DoublyLinkedList K V → Option (K × V)
  | DoublyLinkedList.Nil => none
  | DoublyLinkedList.Cons _ pr _ => some pr

/-- Address of the first ghost entry carrying key `k`. -/
def findAddr {K V : Type} [DecidableEq K] : List (ChainEntry K V) → K → Option Nat
  | [], _ => none
  | e :: rest, k => if e.2.1 = k then some e.1 else findAddr rest k

/-- Drop every ghost entry carrying key `k`. -/
def eraseKeyE {K V : Type} [DecidableEq K] : List (ChainEntry K V) → K → List (ChainEntry K V)
  | [], _ => []
  | e :: rest, k => if e.2.1 = k then eraseKeyE rest k else e :: eraseKeyE rest k

/-- Well-formedness of the ordering chain with respect to ghost entries:
the heap starts at the sentinel node 0, the chain from `first_link` realises
`es`, `current_link` is the last entry, and entry addresses are distinct
in-range allocations. -/
structure ChainWF {K V : Type} (m : LinkedHashMap K V) (es : List (ChainEntry K V)) : Prop where
  len_pos : 0 < m.heap.length
  nil0 : heapGetL m.heap 0 = DoublyLinkedList.Nil
  chain : chainOK m.heap 0 m.first_link es
  current_eq : m.current_link = lastAddrD 0 es
  addr_nodup : (es.map (fun e => e.1)).Nodup
  addr_lt : ∀ e ∈ es, e.1 < m.heap.length

/-- Well-formedness of the hash index with respect to ghost entries: keys are
unique and index lookup finds exactly the entry addresses. -/
structure IndexWF {K V : Type} [DecidableEq K] (m : LinkedHashMap K V) (es : List (ChainEntry K V)) : Prop where
  keys_nodup : (es.map (fun e => e.2.1)).Nodup
  lookup : ∀ k, assocGet m.hashmap k = findAddr es k

/-- Full representation invariant: chain and index both realise `es`. -/
def WF {K V : Type} [DecidableEq K] (m : LinkedHashMap K V) (es : List (ChainEntry K V)) : Prop :=
  ChainWF m es ∧ IndexWF m es

/-- Every index entry points into the allocated heap. -/
def GInv {K V : Type} [DecidableEq K] (m : LinkedHashMap K V) : Prop :=
  ∀ k a, assocGet m.hashmap k = some a → a < m.heap.length

/-- A public mutating operation of the container. -/
inductive MapOp (K V : Type) where
  | insert (key : K) (val : V) : MapOp K V
  | remove (key : K) : MapOp K V

/-- Run a sequence of operations on a map. -/
def runOps {K V : Type} [DecidableEq K] : LinkedHashMap K V → List (MapOp K V) → LinkedHashMap K V
  | m, [] => m
  | m, MapOp.insert k v :: ops => runOps (m.insert k v) ops
  | m, MapOp.remove k :: ops => runOps (m.remove k).2 ops

/-- Run a sequence of operations starting from `new()`. -/
def run {K V : Type} [DecidableEq K] (ops : List (MapOp K V)) : LinkedHashMap K V :=
  runOps LinkedHashMap.new ops

/-- The sequence never inserts a key that is present in the index at the
moment of the insertion. -/
def DistinctRun {K V : Type} [DecidableEq K] : LinkedHashMap K V → List (MapOp K V) → Prop
  | _, [] => True
  | m, MapOp.insert k v :: ops => assocGet m.hashmap k = none ∧ DistinctRun (m.insert k v) ops
  | m, MapOp.remove k :: ops => DistinctRun (m.remove k).2 ops

/-- Specification-level lookup over a history: the last value inserted for
`k`, unless a later removal of `k` intervened, starting from `acc`. -/
def histGet {K V : Type} [DecidableEq K] (k : K) : List (MapOp K V) → Option V → Option V
  | [], acc => acc
  | MapOp.insert k' v :: ops, acc => histGet k ops (if k' = k then some v else acc)
  | MapOp.remove k' :: ops, acc => histGet k ops (if k' = k then none else acc)

/-- Insert a list of pairs in order. -/
def insertAll {K V : Type} [DecidableEq K] : LinkedHashMap K V → List (K × V) → LinkedHashMap K V
  | m, [] => m
  | m, (k, v) :: ps => insertAll (m.insert k v) ps

/-- Ghost entries created by inserting `ps` when the heap already holds
`len` nodes. -/
def freshEntries {K V : Type} : Nat → List (K × V) → List (ChainEntry K V)
  | _, [] => []
  | len, (k, v) :: ps => (len, k, v) :: freshEntries (len + 1) ps

/-- Ghost entries after running a history, starting from heap size `len`
and entries `es`. -/
def ghostEntries {K V : Type} [DecidableEq K] : Nat → List (ChainEntry K V) → List (MapOp K V) → List (ChainEntry K V)
  | _, es, [] => es
  | len, es, MapOp.insert k v :: ops => ghostEntries (len + 1) (es ++ [(len, k, v)]) ops
  | len, es, MapOp.remove k :: ops => ghostEntries len (eraseKeyE es k) ops

/-- The keys yielded by a full iteration of the chain. -/
def chainKeys {K V : Type} (m : LinkedHashMap K V) : List K := m.toList.map Prod.fst

/-- The bijection property: a key is reachable through the chain exactly when
it is present in the index, and the chain carries each key at most once. -/
def BijectionInv {K V : Type} [DecidableEq K] (m : LinkedHashMap K V) : Prop :=
  (∀ k : K, k ∈ chainKeys m ↔ ∃ a, assocGet m.hashmap k = some a) ∧ (chainKeys m).Nodup

/-- Model of the draining loop of `main`: repeatedly pull a pair from the
live cursor and remove its key from the map, collecting the removed keys. -/
def drainLoop {K V : Type} [DecidableEq K] : Nat → Iterator → LinkedHashMap K V → List K × LinkedHashMap K V
  | 0, _, m => ([], m)
  | fuel + 1, it, m =>
      match Iterator.step m.heap it with
      | (some pr, it') =>
          let rest := drainLoop fuel it' (m.remove pr.1).2
          (pr.1 :: rest.1, rest.2)
      | (none, _) => ([], m)

/-- The demonstration map of `main` after its six insertions. -/
def demoMap : LinkedHashMap String Nat :=
  insertAll LinkedHashMap.new
    [("First", 5), ("Second", 8), ("Third", 9), ("Fourth", 11), ("Fifth", 15), ("Sixth", 20)]

/-- The demonstration map after `main` removes Third and Fourth. -/
def demoMap4 : LinkedHashMap String Nat :=
  ((demoMap.remove "Third").2.remove "Fourth").2

/-- The draining loop of `main` run on the demonstration map: the keys removed,
in order, and the final map. -/
def demoDrain : List String × LinkedHashMap String Nat :=
  drainLoop 10 demoMap4.iter demoMap4

theorem heapGetL_of_le {K V : Type} :
    ∀ (h : List (DoublyLinkedList K V)) (a : Nat), h.length ≤ a →
      heapGetL h a = DoublyLinkedList.Nil := by
  intro h
  induction h with
  | nil => intro a _; rfl
  | cons x t ih =>
      intro a ha
      cases a with
      | zero => simp at ha
      | succ n => exact ih n (by simpa using ha)

theorem heapGetL_lt_of_cons {K V : Type} {h : List (DoublyLinkedList K V)} {a p : Nat}
    {pr : K × V} {n : Nat} (hc : heapGetL h a = DoublyLinkedList.Cons p pr n) :
    a < h.length := by
  by_contra hlt
  rw [heapGetL_of_le h a (Nat.le_of_not_lt hlt)] at hc
  exact DoublyLinkedList.noConfusion hc

theorem heapGetL_append_lt {K V : Type} :
    ∀ (h l : List (DoublyLinkedList K V)) (a : Nat), a < h.length →
      heapGetL (h ++ l) a = heapGetL h a := by
  intro h
  induction h with
  | nil => intro l a ha; simp at ha
  | cons x t ih =>
      intro l a ha
      cases a with
      | zero => rfl
      | succ n => exact ih l n (by simpa using ha)

theorem heapGetL_append_len {K V : Type} :
    ∀ (h : List (DoublyLinkedList K V)) (x : DoublyLinkedList K V),
      heapGetL (h ++ [x]) h.length = x := by
  intro h
  induction h with
  | nil => intro x; rfl
  | cons y t ih => intro x; exact ih x

theorem heapSet_length {K V : Type} :
    ∀ (h : List (DoublyLinkedList K V)) (a : Nat) (x : DoublyLinkedList K V),
      (heapSet h a x).length = h.length := by
  intro h
  induction h with
  | nil => intro a x; rfl
  | cons y t ih =>
      intro a x
      cases a with
      | zero => rfl
      | succ n => simpa [heapSet] using ih n x

theorem heapGetL_heapSet_self {K V : Type} :
    ∀ (h : List (DoublyLinkedList K V)) (a : Nat) (x : DoublyLinkedList K V), a < h.length →
      heapGetL (heapSet h a x) a = x := by
  intro h
  induction h with
  | nil => intro a x ha; simp at ha
  | cons y t ih =>
      intro a x ha
      cases a with
      | zero => rfl
      | succ n => exact ih n x (by simpa using ha)

theorem heapGetL_heapSet_ne {K V : Type} :
    ∀ (h : List (DoublyLinkedList K V)) (a b : Nat) (x : DoublyLinkedList K V), b ≠ a →
      heapGetL (heapSet h a x) b = heapGetL h b := by
  intro h
  induction h with
  | nil => intro a b x _; rfl
  | cons y t ih =>
      intro a b x hne
      cases a with
      | zero =>
          cases b with
          | zero => exact absurd rfl hne
          | succ nb => rfl
      | succ na =>
          cases b with
          | zero => rfl
          | succ nb => exact ih na nb x (fun hh => hne (by rw [hh]))

theorem assocGet_assocRemove_self {K : Type} [DecidableEq K] :
    ∀ (l : List (K × Nat)) (k : K), assocGet (assocRemove l k) k = none := by
  intro l k
  induction l with
  | nil => rfl
  | cons p rest ih =>
      by_cases hp : p.1 = k
      · simpa [assocRemove, hp] using ih
      · simpa [assocRemove, assocGet, hp] using ih

theorem assocGet_assocRemove_ne {K : Type} [DecidableEq K] {k' k : K}
    (hne : k' ≠ k) : ∀ (l : List (K × Nat)), assocGet (assocRemove l k') k = assocGet l k := by
  intro l
  induction l with
  | nil => rfl
  | cons p rest ih =>
      obtain ⟨pk, pa⟩ := p
      by_cases hp : pk = k'
      · have hpk : ¬ pk = k := fun hh => hne (hp.symm.trans hh)
        simpa [assocRemove, assocGet, hp, hpk, hne] using ih
      · by_cases hpk : pk = k
        · simp [assocRemove, assocGet, hp, hpk, Ne.symm hne]
        · simpa [assocRemove, assocGet, hp, hpk] using ih

theorem assocGet_assocInsert_self {K : Type} [DecidableEq K]
    (l : List (K × Nat)) (k : K) (a : Nat) : assocGet (assocInsert l k a) k = some a := by
  simp [assocInsert, assocGet]

theorem assocGet_assocInsert_ne {K : Type} [DecidableEq K] {k' k : K} (hne : k' ≠ k)
    (l : List (K × Nat)) (a : Nat) : assocGet (assocInsert l k' a) k = assocGet l k := by
  simp only [assocInsert, assocGet, if_neg hne]
  exact assocGet_assocRemove_ne hne l

theorem findAddr_eq_none {K V : Type} [DecidableEq K] :
    ∀ (es : List (ChainEntry K V)) (k : K), k ∉ es.map (fun e => e.2.1) →
      findAddr es k = none := by
  intro es
  induction es with
  | nil => intro k _; rfl
  | cons e rest ih =>
      intro k hk
      have h1 : ¬ e.2.1 = k := fun hh => hk (by simp [hh])
      have h2 : k ∉ rest.map (fun e => e.2.1) := fun hh => hk (by simp [hh])
      simp [findAddr, h1, ih k h2]

theorem findAddr_append_none {K V : Type} [DecidableEq K] {l1 : List (ChainEntry K V)} {k : K}
    (h : findAddr l1 k = none) (l2 : List (ChainEntry K V)) :
    findAddr (l1 ++ l2) k = findAddr l2 k := by
  induction l1 with
  | nil => rfl
  | cons e rest ih =>
      by_cases he : e.2.1 = k
      · simp [findAddr, he] at h
      · simp only [findAddr, he, if_neg he, ite_false] at h ⊢
        exact ih h

theorem findAddr_append_left {K V : Type} [DecidableEq K] {l1 : List (ChainEntry K V)} {k : K}
    {a : Nat} (h : findAddr l1 k = some a) (l2 : List (ChainEntry K V)) :
    findAddr (l1 ++ l2) k = some a := by
  induction l1 with
  | nil => exact absurd h (by simp [findAddr])
  | cons e rest ih =>
      by_cases he : e.2.1 = k
      · simp only [findAddr, he, ite_true] at h ⊢
        exact h
      · simp only [findAddr, he, ite_false] at h ⊢
        exact ih h

theorem findAddr_decomp {K V : Type} [DecidableEq K] :
    ∀ (es : List (ChainEntry K V)) (k : K) (a : Nat), findAddr es k = some a →
      ∃ pre v post, es = pre ++ (a, k, v) :: post ∧ k ∉ pre.map (fun e => e.2.1) := by
  intro es
  induction es with
  | nil => intro k a h; exact absurd h (by simp [findAddr])
  | cons e rest ih =>
      intro k a h
      by_cases he : e.2.1 = k
      · refine ⟨[], e.2.2, rest, ?_, by simp⟩
        simp only [findAddr, he, ite_true, Option.some.injEq] at h
        simp [← h, ← he]
      · simp only [findAddr, he, ite_false] at h
        obtain ⟨pre, v, post, heq, hpre⟩ := ih k a h
        refine ⟨e :: pre, v, post, by simp [heq], ?_⟩
        simp only [List.map_cons, List.mem_cons]
        rintro (hh | hh)
        · exact he hh.symm
        · exact hpre hh

theorem eraseKeyE_of_not_mem {K V : Type} [DecidableEq K] :
    ∀ (es : List (ChainEntry K V)) (k : K), k ∉ es.map (fun e => e.2.1) →
      eraseKeyE es k = es := by
  intro es
  induction es with
  | nil => intro k _; rfl
  | cons e rest ih =>
      intro k hk
      have h1 : ¬ e.2.1 = k := fun hh => hk (by simp [hh])
      have h2 : k ∉ rest.map (fun e => e.2.1) := fun hh => hk (by simp [hh])
      simp [eraseKeyE, h1, ih k h2]

theorem eraseKeyE_append {K V : Type} [DecidableEq K] (l1 l2 : List (ChainEntry K V)) (k : K) :
    eraseKeyE (l1 ++ l2) k = eraseKeyE l1 k ++ eraseKeyE l2 k := by
  induction l1 with
  | nil => rfl
  | cons e rest ih =>
      by_cases he : e.2.1 = k
      · simp [eraseKeyE, he, ih]
      · simp [eraseKeyE, he, ih]

theorem eraseKeyE_decomp {K V : Type} [DecidableEq K] {pre post : List (ChainEntry K V)}
    {k : K} {a : Nat} {v : V} (hpre : k ∉ pre.map (fun e => e.2.1))
    (hpost : k ∉ post.map (fun e => e.2.1)) :
    eraseKeyE (pre ++ (a, k, v) :: post) k = pre ++ post := by
  rw [eraseKeyE_append, eraseKeyE_of_not_mem pre k hpre]
  have : eraseKeyE ((a, k, v) :: post) k = post := by
    simp [eraseKeyE, eraseKeyE_of_not_mem post k hpost]
  rw [this]

theorem headAddr_append {K V : Type} (es l : List (ChainEntry K V)) (h : es ≠ []) :
    headAddr (es ++ l) = headAddr es := by
  cases es with
  | nil => exact absurd rfl h
  | cons e rest => rfl

theorem lastAddrD_append {K V : Type} :
    ∀ (l1 l2 : List (ChainEntry K V)) (d : Nat),
      lastAddrD d (l1 ++ l2) = lastAddrD (lastAddrD d l1) l2 := by
  intro l1
  induction l1 with
  | nil => intro l2 d; rfl
  | cons e rest ih => intro l2 d; exact ih l2 e.1

theorem lastAddrD_irrel {K V : Type} :
    ∀ (es : List (ChainEntry K V)) (d d' : Nat), es ≠ [] → lastAddrD d es = lastAddrD d' es := by
  intro es
  induction es with
  | nil => intro d d' h; exact absurd rfl h
  | cons e rest ih =>
      intro d d' _
      cases rest with
      | nil => rfl
      | cons f rest' => rfl

theorem lastAddrD_mem {K V : Type} :
    ∀ (es : List (ChainEntry K V)) (d : Nat), es ≠ [] →
      lastAddrD d es ∈ es.map (fun e => e.1) := by
  intro es
  induction es with
  | nil => intro d h; exact absurd rfl h
  | cons e rest ih =>
      intro d _
      cases rest with
      | nil => simp [lastAddrD]
      | cons f rest' =>
          have := ih e.1 (by simp)
          simp only [lastAddrD]
          simp only [List.map_cons, List.mem_cons]
          right
          simpa using this

theorem chainOK_congr {K V : Type} {h1 h2 : List (DoublyLinkedList K V)} :
    ∀ (es : List (ChainEntry K V)) (p a : Nat),
      (∀ e ∈ es, heapGetL h2 e.1 = heapGetL h1 e.1) →
      chainOK h1 p a es → chainOK h2 p a es := by
  intro es
  induction es with
  | nil => intro p a _ hc; exact hc
  | cons e rest ih =>
      intro p a hagree hc
      obtain ⟨ha, hnode, hrest⟩ := hc
      refine ⟨ha, ?_, ih e.1 (headAddr rest) (fun x hx => hagree x (by simp [hx])) hrest⟩
      rw [ha, hagree e (by simp), ← ha]
      exact hnode

theorem chainOK_mem {K V : Type} {heap : List (DoublyLinkedList K V)} :
    ∀ (es : List (ChainEntry K V)) (p a : Nat), chainOK heap p a es →
      ∀ e ∈ es, ∃ pp nn, heapGetL heap e.1 = DoublyLinkedList.Cons pp e.2 nn := by
  intro es
  induction es with
  | nil => intro p a _ e he; simp at he
  | cons f rest ih =>
      intro p a hc e he
      obtain ⟨ha, hnode, hrest⟩ := hc
      rcases List.mem_cons.mp he with he | he
      · subst he
        exact ⟨p, headAddr rest, by rw [← ha]; exact hnode⟩
      · exact ih f.1 (headAddr rest) hrest e he

theorem chainOK_ne_zero {K V : Type} {heap : List (DoublyLinkedList K V)}
    {es : List (ChainEntry K V)} {p a : Nat}
    (hnil : heapGetL heap 0 = DoublyLinkedList.Nil) (hc : chainOK heap p a es) :
    ∀ e ∈ es, e.1 ≠ 0 := by
  intro e he h0
  obtain ⟨pp, nn, hcons⟩ := chainOK_mem es p a hc e he
  rw [h0, hnil] at hcons
  exact DoublyLinkedList.noConfusion hcons

theorem chainOK_decomp {K V : Type} {heap : List (DoublyLinkedList K V)} :
    ∀ (pre : List (ChainEntry K V)) (p b : Nat) (e : ChainEntry K V)
      (post : List (ChainEntry K V)),
      chainOK heap p b (pre ++ e :: post) →
      heapGetL heap e.1 = DoublyLinkedList.Cons (lastAddrD p pre) e.2 (headAddr post) ∧
        chainOK heap e.1 (headAddr post) post := by
  intro pre
  induction pre with
  | nil =>
      intro p b e post hc
      obtain ⟨hb, hnode, hrest⟩ := hc
      exact ⟨by rw [← hb]; exact hnode, hrest⟩
  | cons f pre' ih =>
      intro p b e post hc
      obtain ⟨hb, hnode, hrest⟩ := hc
      exact ih f.1 (headAddr (pre' ++ e :: post)) e post hrest

theorem iterFrom_of_chainOK {K V : Type} {heap : List (DoublyLinkedList K V)}
    (hnil : heapGetL heap 0 = DoublyLinkedList.Nil) :
    ∀ (es : List (ChainEntry K V)) (p a fuel : Nat), chainOK heap p a es →
      es.length ≤ fuel → iterFrom heap a fuel = es.map (fun e => e.2) := by
  intro es
  induction es with
  | nil =>
      intro p a fuel hc _
      have ha : a = 0 := hc
      cases fuel with
      | zero => rfl
      | succ f => simp [iterFrom, ha, hnil]
  | cons e rest ih =>
      intro p a fuel hc hlen
      obtain ⟨ha, hnode, hrest⟩ := hc
      cases fuel with
      | zero => simp at hlen
      | succ f =>
          rw [ha] at hnode ⊢
          simp only [iterFrom, hnode, List.map_cons]
          exact congrArg _ (ih e.1 (headAddr rest) f hrest (by simpa using hlen))

theorem stepN_of_nil {K V : Type} {heap : List (DoublyLinkedList K V)} {a : Nat}
    (hnil : heapGetL heap a = DoublyLinkedList.Nil) :
    ∀ i, stepN heap a i = a := by
  intro i
  induction i with
  | zero => rfl
  | succ n ih => simp only [stepN, hnil]; exact ih

theorem stepN_of_chainOK {K V : Type} {heap : List (DoublyLinkedList K V)}
    (hnil : heapGetL heap 0 = DoublyLinkedList.Nil) :
    ∀ (es : List (ChainEntry K V)) (i p a : Nat), chainOK heap p a es → i ≤ es.length →
      stepN heap a i = headAddr (es.drop i) := by
  intro es
  induction es with
  | nil =>
      intro i p a hc _
      have ha : a = 0 := hc
      rw [ha, stepN_of_nil hnil i]
      simp [headAddr]
  | cons e rest ih =>
      intro i p a hc hlen
      obtain ⟨ha, hnode, hrest⟩ := hc
      cases i with
      | zero => rw [ha]; rfl
      | succ j =>
          rw [ha] at hnode ⊢
          simp only [stepN, hnode, List.drop_succ_cons]
          exact ih j e.1 (headAddr rest) hrest (by simpa using hlen)

theorem chainOK_drop {K V : Type} {heap : List (DoublyLinkedList K V)} :
    ∀ (es : List (ChainEntry K V)) (i p a : Nat), chainOK heap p a es →
      ∃ q, chainOK heap q (headAddr (es.drop i)) (es.drop i) := by
  intro es
  induction es with
  | nil =>
      intro i p a hc
      refine ⟨p, ?_⟩
      simp only [List.drop_nil]
      rfl
  | cons e rest ih =>
      intro i p a hc
      obtain ⟨ha, hnode, hrest⟩ := hc
      cases i with
      | zero =>
          refine ⟨p, ?_⟩
          simp only [List.drop_zero]
          refine ⟨rfl, ?_, hrest⟩
          show heapGetL heap e.1 = DoublyLinkedList.Cons p e.2 (headAddr rest)
          rw [← ha]
          exact hnode
      | succ j =>
          simpa using ih j e.1 (headAddr rest) hrest

theorem chainOK_headAddr {K V : Type} {heap : List (DoublyLinkedList K V)}
    {es : List (ChainEntry K V)} {p b : Nat} (hc : chainOK heap p b es) :
    b = headAddr es := by
  cases es with
  | nil => exact hc
  | cons e rest => exact hc.1

theorem chainOK_snoc {K V : Type} {heap heap2 : List (DoublyLinkedList K V)}
    {fresh lastG : Nat} {pr : K × V}
    (hoth : ∀ x, x ≠ lastG → x ≠ fresh → heapGetL heap2 x = heapGetL heap x)
    (hlastW : ∀ pp q, heapGetL heap lastG = DoublyLinkedList.Cons pp q 0 →
      heapGetL heap2 lastG = DoublyLinkedList.Cons pp q fresh)
    (hfreshW : heapGetL heap2 fresh = DoublyLinkedList.Cons lastG pr 0) :
    ∀ (es : List (ChainEntry K V)) (p b : Nat),
      lastAddrD p es = lastG → chainOK heap p b es →
      (es.map (fun e => e.1)).Nodup → fresh ∉ es.map (fun e => e.1) →
      chainOK heap2 p (headAddr (es ++ [(fresh, pr.1, pr.2)])) (es ++ [(fresh, pr.1, pr.2)]) := by
  intro es
  induction es with
  | nil =>
      intro p b hlast _ _ _
      refine ⟨rfl, ?_, rfl⟩
      show heapGetL heap2 fresh = DoublyLinkedList.Cons p pr 0
      rw [hfreshW, ← hlast]
      rfl
  | cons e es' ih =>
      intro p b hlast hc hnd hfr
      obtain ⟨hb, hnode, hrest⟩ := hc
      have he_ne_fresh : e.1 ≠ fresh := by
        intro hh
        exact hfr (by simp [← hh])
      refine ⟨rfl, ?_, ?_⟩
      · -- the head node of the extended chain
        cases es' with
        | nil =>
            have hlg : e.1 = lastG := hlast
            have hold : heapGetL heap lastG = DoublyLinkedList.Cons p e.2 0 := by
              rw [← hlg, ← hb]
              exact hnode
            have hw := hlastW p e.2 hold
            show heapGetL heap2 e.1 = DoublyLinkedList.Cons p e.2 fresh
            rw [hlg]
            exact hw
        | cons f es'' =>
            have hlg : lastG ∈ (f :: es'').map (fun e => e.1) := by
              rw [← hlast]
              exact lastAddrD_mem (f :: es'') e.1 (by simp)
            have he_ne_last : e.1 ≠ lastG := by
              intro hh
              have : e.1 ∉ (f :: es'').map (fun e => e.1) := by
                have := hnd
                simp only [List.map_cons, List.nodup_cons] at this
                simpa using this.1
              exact this (hh ▸ hlg)
            show heapGetL heap2 e.1 =
              DoublyLinkedList.Cons p e.2 (headAddr ((f :: es'') ++ [(fresh, pr.1, pr.2)]))
            rw [hoth e.1 he_ne_last he_ne_fresh, ← hb, hnode,
              headAddr_append (f :: es'') [(fresh, pr.1, pr.2)] (by simp)]
      · -- the tail chain
        have hnd' : (es'.map (fun e => e.1)).Nodup := by
          simp only [List.map_cons, List.nodup_cons] at hnd
          exact hnd.2
        have hfr' : fresh ∉ es'.map (fun e => e.1) := fun hh => hfr (by simp [hh])
        exact ih e.1 (headAddr es') hlast hrest hnd' hfr'

theorem insert_of_nil {K V : Type} [DecidableEq K] {m : LinkedHashMap K V} {k : K} {v : V}
    (h : heapGetL m.heap m.current_link = DoublyLinkedList.Nil) :
    m.insert k v =
      { heap := m.heap ++ [DoublyLinkedList.Cons m.current_link (k, v) m.current_link],
        current_link := m.heap.length, first_link := m.heap.length,
        hashmap := assocInsert m.hashmap k m.heap.length } := by
  unfold LinkedHashMap.insert
  rw [h]

theorem insert_of_cons {K V : Type} [DecidableEq K] {m : LinkedHashMap K V} {k : K} {v : V}
    {cp : Nat} {cpair : K × V} {ce : Nat}
    (h : heapGetL m.heap m.current_link = DoublyLinkedList.Cons cp cpair ce) :
    m.insert k v =
      { heap := heapSet (m.heap ++ [DoublyLinkedList.Cons m.current_link (k, v) ce])
          m.current_link (DoublyLinkedList.Cons cp cpair m.heap.length),
        current_link := m.heap.length, first_link := m.first_link,
        hashmap := assocInsert m.hashmap k m.heap.length } := by
  unfold LinkedHashMap.insert
  rw [h]

theorem ChainWF_empty_of_nil {K V : Type} {m : LinkedHashMap K V} {es : List (ChainEntry K V)}
    (hwf : ChainWF m es) (h : heapGetL m.heap m.current_link = DoublyLinkedList.Nil) :
    es = [] := by
  rcases List.eq_nil_or_concat es with h0 | ⟨L, eL, hL⟩
  · exact h0
  · exfalso
    rw [List.concat_eq_append] at hL
    subst hL
    have hcur : m.current_link = eL.1 := by
      rw [hwf.current_eq, lastAddrD_append]
      rfl
    have hdec := (chainOK_decomp L 0 m.first_link eL [] hwf.chain).1
    rw [hcur, hdec] at h
    exact DoublyLinkedList.noConfusion h

theorem fresh_not_mem {K V : Type} {m : LinkedHashMap K V} {es : List (ChainEntry K V)}
    (hwf : ChainWF m es) : m.heap.length ∉ es.map (fun e => e.1) := by
  intro hm
  simp only [List.mem_map] at hm
  obtain ⟨e, he, heq⟩ := hm
  have := hwf.addr_lt e he
  omega

theorem insert_ChainWF {K V : Type} [DecidableEq K] {m : LinkedHashMap K V}
    {es : List (ChainEntry K V)} (hwf : ChainWF m es) (k : K) (v : V) :
    ChainWF (m.insert k v) (es ++ [(m.heap.length, k, v)]) := by
  rcases hsc : heapGetL m.heap m.current_link with _ | ⟨cp, cpair, ce⟩
  · -- the map was empty
    have hes : es = [] := ChainWF_empty_of_nil hwf hsc
    subst hes
    have hcur : m.current_link = 0 := hwf.current_eq
    rw [insert_of_nil hsc]
    refine ⟨by simp, ?_, ?_, rfl, by simp, ?_⟩
    · show heapGetL (m.heap ++ [DoublyLinkedList.Cons m.current_link (k, v) m.current_link]) 0 =
        DoublyLinkedList.Nil
      rw [heapGetL_append_lt m.heap _ 0 hwf.len_pos]
      exact hwf.nil0
    · refine ⟨rfl, ?_, rfl⟩
      show heapGetL (m.heap ++ [DoublyLinkedList.Cons m.current_link (k, v) m.current_link])
          m.heap.length = DoublyLinkedList.Cons 0 (k, v) 0
      rw [heapGetL_append_len, hcur]
    · intro e he
      simp only [List.nil_append, List.mem_singleton] at he
      subst he
      simp
  · -- the map was non-empty
    have hes : es ≠ [] := by
      intro h0
      subst h0
      have hcur : m.current_link = 0 := hwf.current_eq
      rw [hcur, hwf.nil0] at hsc
      exact DoublyLinkedList.noConfusion hsc
    have hcur_lt : m.current_link < m.heap.length := heapGetL_lt_of_cons hsc
    have hlastG : lastAddrD 0 es = m.current_link := hwf.current_eq.symm
    have hfr : m.heap.length ∉ es.map (fun e => e.1) := fresh_not_mem hwf
    rcases List.eq_nil_or_concat es with h0 | ⟨L, eL, hL⟩
    · exact absurd h0 hes
    rw [List.concat_eq_append] at hL
    have hcurL : m.current_link = eL.1 := by
      rw [hwf.current_eq, hL, lastAddrD_append]
      rfl
    have hnodeL : heapGetL m.heap eL.1 = DoublyLinkedList.Cons (lastAddrD 0 L) eL.2 0 := by
      have := (chainOK_decomp L 0 m.first_link eL [] (by rw [← hL]; exact hwf.chain)).1
      exact this
    have hce : ce = 0 := by
      have hsc2 : heapGetL m.heap eL.1 = DoublyLinkedList.Cons cp cpair ce := by
        rw [← hcurL]
        exact hsc
      rw [hnodeL] at hsc2
      injection hsc2 with h1 h2 h3
      exact h3.symm
    rw [insert_of_cons hsc]
    have hlen2 : (heapSet (m.heap ++ [DoublyLinkedList.Cons m.current_link (k, v) ce])
        m.current_link (DoublyLinkedList.Cons cp cpair m.heap.length)).length
        = m.heap.length + 1 := by
      rw [heapSet_length, List.length_append]
      rfl
    have hoth : ∀ x, x ≠ m.current_link → x ≠ m.heap.length →
        heapGetL (heapSet (m.heap ++ [DoublyLinkedList.Cons m.current_link (k, v) ce])
          m.current_link (DoublyLinkedList.Cons cp cpair m.heap.length)) x
        = heapGetL m.heap x := by
      intro x hx1 hx2
      rcases Nat.lt_or_ge x m.heap.length with hlt | hge
      · rw [heapGetL_heapSet_ne _ _ _ _ hx1, heapGetL_append_lt m.heap _ x hlt]
      · have hge2 : m.heap.length + 1 ≤ x := by omega
        rw [heapGetL_of_le _ x (by rw [hlen2]; exact hge2), heapGetL_of_le m.heap x hge]
    have hfreshW : heapGetL (heapSet (m.heap ++ [DoublyLinkedList.Cons m.current_link (k, v) ce])
        m.current_link (DoublyLinkedList.Cons cp cpair m.heap.length)) m.heap.length
        = DoublyLinkedList.Cons m.current_link (k, v) 0 := by
      rw [heapGetL_heapSet_ne _ _ _ _ (by omega), heapGetL_append_len, hce]
    have hlastW : ∀ pp q, heapGetL m.heap m.current_link = DoublyLinkedList.Cons pp q 0 →
        heapGetL (heapSet (m.heap ++ [DoublyLinkedList.Cons m.current_link (k, v) ce])
          m.current_link (DoublyLinkedList.Cons cp cpair m.heap.length)) m.current_link
        = DoublyLinkedList.Cons pp q m.heap.length := by
      intro pp q hq
      rw [hsc] at hq
      injection hq with h1 h2 h3
      rw [heapGetL_heapSet_self _ _ _ (by rw [List.length_append]; omega), h1, h2]
    have hchain := chainOK_snoc hoth hlastW hfreshW es 0 m.first_link hlastG hwf.chain
      hwf.addr_nodup hfr
    have hfirst : m.first_link = headAddr (es ++ [(m.heap.length, k, v)]) := by
      rw [headAddr_append es _ hes]
      exact chainOK_headAddr hwf.chain
    refine ⟨by rw [hlen2]; omega, ?_, ?_, ?_, ?_, ?_⟩
    · show heapGetL (heapSet (m.heap ++ [DoublyLinkedList.Cons m.current_link (k, v) ce])
          m.current_link (DoublyLinkedList.Cons cp cpair m.heap.length)) 0 = DoublyLinkedList.Nil
      have h0cur : (0 : Nat) ≠ m.current_link := by
        intro hh
        have := chainOK_ne_zero hwf.nil0 hwf.chain eL (by rw [hL]; simp)
        rw [hcurL] at hh
        exact this hh.symm
      rw [hoth 0 h0cur (by omega)]
      exact hwf.nil0
    · show chainOK _ 0 m.first_link (es ++ [(m.heap.length, k, v)])
      rw [hfirst]
      exact hchain
    · show m.heap.length = lastAddrD 0 (es ++ [(m.heap.length, k, v)])
      rw [lastAddrD_append]
      rfl
    · rw [List.map_append, List.nodup_append]
      refine ⟨hwf.addr_nodup, by simp, ?_⟩
      intro x hx hx2
      simp only [List.map_cons, List.map_nil, List.mem_singleton] at hx2
      subst hx2
      exact hfr hx
    · intro e he
      rw [hlen2]
      rcases List.mem_append.mp he with he | he
      · have := hwf.addr_lt e he
        omega
      · simp only [List.mem_singleton] at he
        subst he
        omega

theorem findAddr_none_not_mem {K V : Type} [DecidableEq K] :
    ∀ (es : List (ChainEntry K V)) (k : K), findAddr es k = none →
      k ∉ es.map (fun e => e.2.1) := by
  intro es
  induction es with
  | nil => intro k _; simp
  | cons e rest ih =>
      intro k hk
      by_cases he : e.2.1 = k
      · simp [findAddr, he] at hk
      · simp only [findAddr, he, ite_false] at hk
        simp only [List.map_cons, List.mem_cons]
        rintro (hh | hh)
        · exact he hh.symm
        · exact ih k hk hh


theorem chainOK_splice {K V : Type} {heap heap2 : List (DoublyLinkedList K V)}
    {aR : Nat} {prR : K × V} {post : List (ChainEntry K V)} {plG nlG : Nat}
    (hnl : nlG = headAddr post)
    (hoth : ∀ x, x ≠ plG → x ≠ nlG → heapGetL heap2 x = heapGetL heap x)
    (hpl : ∀ pp q nx, heapGetL heap plG = DoublyLinkedList.Cons pp q nx →
      heapGetL heap2 plG = DoublyLinkedList.Cons pp q nlG)
    (hnlC : ∀ np q nn, heapGetL heap nlG = DoublyLinkedList.Cons np q nn →
      heapGetL heap2 nlG = DoublyLinkedList.Cons plG q nn) :
    ∀ (pre : List (ChainEntry K V)) (p b : Nat),
      plG = lastAddrD p pre →
      chainOK heap p b (pre ++ (aR, prR) :: post) →
      ((pre ++ (aR, prR) :: post).map (fun e => e.1)).Nodup →
      p ∉ (pre ++ (aR, prR) :: post).map (fun e => e.1) →
      (∀ e ∈ pre ++ (aR, prR) :: post, e.1 ≠ 0) →
      chainOK heap2 p (headAddr (pre ++ post)) (pre ++ post) := by
  intro pre
  induction pre with
  | nil =>
      intro p b hplG hc hnd hpnot hnz
      obtain ⟨hb, hnode, hrest⟩ := hc
      simp only [List.nil_append] at hrest hnd hpnot hnz ⊢
      cases post with
      | nil => rfl
      | cons e2 post' =>
          have hplp : plG = p := hplG
          have hnl2 : nlG = e2.1 := hnl
          obtain ⟨_, hnode2, hrest2⟩ := hrest
          refine ⟨rfl, ?_, ?_⟩
          · have hw := hnlC aR e2.2 (headAddr post') (by rw [hnl2]; exact hnode2)
            show heapGetL heap2 e2.1 = DoublyLinkedList.Cons p e2.2 (headAddr post')
            rw [← hnl2, hw, hplp]
          · refine chainOK_congr post' e2.1 (headAddr post') ?_ hrest2
            intro x hx
            have hxmem : x.1 ∈ ((aR, prR) :: e2 :: post').map (fun e => e.1) := by
              simp only [List.map_cons, List.mem_cons]
              right
              right
              exact List.mem_map.mpr ⟨x, hx, rfl⟩
            have hx1 : x.1 ≠ plG := by
              intro hh
              have hpx : p = x.1 := hplp.symm.trans hh.symm
              exact hpnot (by rw [hpx]; exact hxmem)
            have hx2 : x.1 ≠ nlG := by
              intro hh
              have he2x : e2.1 = x.1 := (hh.trans hnl2).symm
              have hnodup2 : e2.1 ∉ (post'.map (fun e => e.1)) := by
                simp only [List.map_cons, List.nodup_cons] at hnd
                simpa using hnd.2.1
              exact hnodup2 (by rw [he2x]; exact List.mem_map.mpr ⟨x, hx, rfl⟩)
            exact hoth x.1 hx1 hx2
  | cons f pre' ih =>
      intro p b hplG hc hnd hpnot hnz
      obtain ⟨hb, hnode, hrest⟩ := hc
      have hf_ne : f.1 ∉ ((pre' ++ (aR, prR) :: post).map (fun e => e.1)) := by
        have h2 := hnd
        simp only [List.cons_append, List.map_cons, List.nodup_cons] at h2
        exact h2.1
      have hnz' : ∀ e ∈ pre' ++ (aR, prR) :: post, e.1 ≠ 0 := by
        intro e he
        exact hnz e (by simp [he])
      have hnd' : ((pre' ++ (aR, prR) :: post).map (fun e => e.1)).Nodup := by
        have h2 := hnd
        simp only [List.cons_append, List.map_cons, List.nodup_cons] at h2
        exact h2.2
      refine ⟨rfl, ?_, ?_⟩
      · cases pre' with
        | nil =>
            have hplf : plG = f.1 := hplG
            have hw := hpl p f.2 aR (by rw [hplf, ← hb]; exact hnode)
            show heapGetL heap2 f.1 = DoublyLinkedList.Cons p f.2 (headAddr ([] ++ post))
            rw [← hplf, hw, hnl]
            rfl
        | cons g pre'' =>
            have hplmem : plG ∈ ((g :: pre'') ++ (aR, prR) :: post).map
                (fun e => e.1) := by
              rw [List.map_append]
              refine List.mem_append_left _ ?_
              rw [hplG]
              exact lastAddrD_mem (g :: pre'') f.1 (by simp)
            have hf1 : f.1 ≠ plG := fun hh => hf_ne (by rw [hh]; exact hplmem)
            have hnl0 : nlG = 0 ∨ nlG ∈ ((g :: pre'') ++ (aR, prR) :: post).map
                (fun e => e.1) := by
              cases post with
              | nil => exact Or.inl hnl
              | cons e2 post' =>
                  right
                  rw [List.map_append]
                  refine List.mem_append_right _ ?_
                  rw [hnl]
                  simp only [List.map_cons, List.mem_cons]
                  right
                  left
                  rfl
            have hf2 : f.1 ≠ nlG := by
              rcases hnl0 with h0 | hmem
              · rw [h0]
                exact hnz f (by simp)
              · exact fun hh => hf_ne (by rw [hh]; exact hmem)
            show heapGetL heap2 f.1 =
              DoublyLinkedList.Cons p f.2 (headAddr ((g :: pre'') ++ post))
            rw [hoth f.1 hf1 hf2, ← hb, hnode]
            rfl
      · exact ih f.1 (headAddr (pre' ++ (aR, prR) :: post)) hplG hrest hnd' hf_ne hnz'

theorem findAddr_middle_ne {K V : Type} [DecidableEq K] {k k' : K} (hne : ¬ k = k')
    (pre post : List (ChainEntry K V)) (a : Nat) (v : V) :
    findAddr (pre ++ (a, k, v) :: post) k' = findAddr (pre ++ post) k' := by
  cases hfa : findAddr pre k' with
  | some x => rw [findAddr_append_left hfa, findAddr_append_left hfa]
  | none =>
      rw [findAddr_append_none hfa, findAddr_append_none hfa]
      simp [findAddr, hne]

theorem remove_absent {K V : Type} [DecidableEq K] {m : LinkedHashMap K V} {k : K}
    (h : assocGet m.hashmap k = none) : m.remove k = (none, m) := by
  unfold LinkedHashMap.remove
  rw [h]

theorem WF_remove_assemble {K V : Type} [DecidableEq K] {m m2 : LinkedHashMap K V}
    {pre post : List (ChainEntry K V)} {k : K} {a : Nat} {v : V}
    (hwf : WF m (pre ++ (a, k, v) :: post))
    (hlen : m2.heap.length = m.heap.length)
    (hhash : m2.hashmap = assocRemove m.hashmap k)
    (hfirst : m2.first_link = headAddr (pre ++ post))
    (hcur : m2.current_link = lastAddrD 0 (pre ++ post))
    (hnil0 : heapGetL m2.heap 0 = DoublyLinkedList.Nil)
    (hoth : ∀ x, x ≠ lastAddrD 0 pre → x ≠ headAddr post →
      heapGetL m2.heap x = heapGetL m.heap x)
    (hpl : ∀ pp q nx, heapGetL m.heap (lastAddrD 0 pre) = DoublyLinkedList.Cons pp q nx →
      heapGetL m2.heap (lastAddrD 0 pre) = DoublyLinkedList.Cons pp q (headAddr post))
    (hnlC : ∀ np q nn, heapGetL m.heap (headAddr post) = DoublyLinkedList.Cons np q nn →
      heapGetL m2.heap (headAddr post) = DoublyLinkedList.Cons (lastAddrD 0 pre) q nn) :
    WF m2 (pre ++ post) := by
  obtain ⟨hcwf, hiwf⟩ := hwf
  have hnz : ∀ e ∈ pre ++ (a, k, v) :: post, e.1 ≠ 0 :=
    chainOK_ne_zero hcwf.nil0 hcwf.chain
  have hpnot : (0 : Nat) ∉ (pre ++ (a, k, v) :: post).map (fun e => e.1) := by
    intro hh
    rcases List.mem_map.mp hh with ⟨e, he, he2⟩
    exact hnz e he he2
  have hchain := chainOK_splice rfl hoth hpl hnlC pre 0 m.first_link rfl hcwf.chain
    hcwf.addr_nodup hpnot hnz
  have hkeys2 := hiwf.keys_nodup
  rw [List.map_append, List.map_cons, List.nodup_append] at hkeys2
  have hkpre : k ∉ pre.map (fun e => e.2.1) := fun hh => hkeys2.2.2 hh (by simp)
  have hkpost : k ∉ post.map (fun e => e.2.1) := ((List.nodup_cons).mp hkeys2.2.1).1
  constructor
  · refine ⟨?_, hnil0, ?_, hcur, ?_, ?_⟩
    · rw [hlen]
      exact hcwf.len_pos
    · rw [hfirst]
      exact hchain
    · have hsub : (pre ++ post).Sublist (pre ++ (a, k, v) :: post) :=
        List.Sublist.append_left (List.sublist_cons_self _ _) pre
      exact (hcwf.addr_nodup).sublist (hsub.map _)
    · intro e he
      rw [hlen]
      refine hcwf.addr_lt e ?_
      rcases List.mem_append.mp he with h | h
      · exact List.mem_append_left _ h
      · exact List.mem_append_right _ (List.mem_cons_of_mem _ h)
  · constructor
    · rw [List.map_append, List.nodup_append]
      refine ⟨hkeys2.1, ((List.nodup_cons).mp hkeys2.2.1).2, ?_⟩
      intro x hx hx2
      exact hkeys2.2.2 hx (List.mem_cons_of_mem _ hx2)
    · intro k'
      rw [hhash]
      by_cases hkk : k' = k
      · subst hkk
        rw [assocGet_assocRemove_self]
        have hnot : k' ∉ (pre ++ post).map (fun e => e.2.1) := by
          rw [List.map_append]
          intro hh
          rcases List.mem_append.mp hh with h | h
          · exact hkpre h
          · exact hkpost h
        rw [findAddr_eq_none _ _ hnot]
      · rw [assocGet_assocRemove_ne (fun hh => hkk hh.symm) m.hashmap]
        rw [hiwf.lookup k']
        exact findAddr_middle_ne (fun hh => hkk hh.symm) pre post a v

theorem nodup_append_ne {α : Type} {l1 l2 : List α} (hnd : (l1 ++ l2).Nodup)
    {x y : α} (hx : x ∈ l1) (hy : y ∈ l2) : x ≠ y := by
  intro hh
  rw [List.nodup_append] at hnd
  exact hnd.2.2 hx (hh ▸ hy)

theorem remove_WF {K V : Type} [DecidableEq K] {m : LinkedHashMap K V}
    {pre post : List (ChainEntry K V)} {k : K} {a : Nat} {v : V}
    (hwf : WF m (pre ++ (a, k, v) :: post)) :
    (m.remove k).1 = some v ∧
    WF (m.remove k).2 (pre ++ post) ∧
    (m.remove k).2.heap.length = m.heap.length ∧
    (∀ x, x ≠ lastAddrD 0 pre → x ≠ headAddr post →
      heapGetL (m.remove k).2.heap x = heapGetL m.heap x) := by
  have hcwf := hwf.1
  have hiwf := hwf.2
  have hnz : ∀ e ∈ pre ++ (a, k, v) :: post, e.1 ≠ 0 :=
    chainOK_ne_zero hcwf.nil0 hcwf.chain
  have hkeys2 := hiwf.keys_nodup
  rw [List.map_append, List.map_cons, List.nodup_append] at hkeys2
  have hkpre : k ∉ pre.map (fun e => e.2.1) := fun hh => hkeys2.2.2 hh (by simp)
  have hlook : assocGet m.hashmap k = some a := by
    rw [hiwf.lookup k, findAddr_append_none (findAddr_eq_none pre k hkpre)]
    simp [findAddr]
  have hnodeR : heapGetL m.heap a =
      DoublyLinkedList.Cons (lastAddrD 0 pre) (k, v) (headAddr post) :=
    (chainOK_decomp pre 0 m.first_link (a, k, v) post hcwf.chain).1
  have handd := hcwf.addr_nodup
  rw [List.map_append, List.map_cons] at handd
  rcases List.eq_nil_or_concat pre with hpre | ⟨pL, eP, hpre⟩
  · subst hpre
    cases post with
    | nil =>
        have hrem : m.remove k = (some v,
            { heap := m.heap, current_link := 0, first_link := 0,
              hashmap := assocRemove m.hashmap k }) := by
          simp [LinkedHashMap.remove, hlook, hnodeR, lastAddrD, headAddr, hcwf.nil0]
        rw [hrem]
        refine ⟨rfl, ?_, rfl, fun x _ _ => rfl⟩
        refine WF_remove_assemble hwf rfl rfl rfl rfl hcwf.nil0 (fun x _ _ => rfl) ?_ ?_
        · intro pp q nx hq
          exact absurd (hcwf.nil0.symm.trans hq) (fun hh => DoublyLinkedList.noConfusion hh)
        · intro np q nn hq
          exact absurd (hcwf.nil0.symm.trans hq) (fun hh => DoublyLinkedList.noConfusion hh)
    | cons e2 post' =>
        have hch2 : chainOK m.heap a (headAddr (e2 :: post')) (e2 :: post') :=
          (chainOK_decomp [] 0 m.first_link (a, k, v) (e2 :: post') hcwf.chain).2
        have hnodeN : heapGetL m.heap e2.1 =
            DoublyLinkedList.Cons a e2.2 (headAddr post') := hch2.2.1
        have he2ne0 : e2.1 ≠ 0 := hnz e2 (by simp)
        have he2lt : e2.1 < m.heap.length := heapGetL_lt_of_cons hnodeN
        have hrem : m.remove k = (some v,
            { heap := heapSet m.heap e2.1 (DoublyLinkedList.Cons 0 e2.2 (headAddr post')),
              current_link := m.current_link, first_link := e2.1,
              hashmap := assocRemove m.hashmap k }) := by
          simp [LinkedHashMap.remove, hlook, hnodeR, lastAddrD, headAddr, hcwf.nil0, hnodeN]
        rw [hrem]
        have hframe : ∀ x, x ≠ lastAddrD 0 ([] : List (ChainEntry K V)) →
            x ≠ headAddr (e2 :: post') →
            heapGetL (heapSet m.heap e2.1 (DoublyLinkedList.Cons 0 e2.2 (headAddr post'))) x
              = heapGetL m.heap x := by
          intro x _ hx2
          exact heapGetL_heapSet_ne m.heap e2.1 x _ hx2
        refine ⟨rfl, ?_, heapSet_length m.heap e2.1 _, hframe⟩
        refine WF_remove_assemble hwf (heapSet_length m.heap e2.1 _) rfl rfl
          hcwf.current_eq ?_ hframe ?_ ?_
        · rw [heapGetL_heapSet_ne m.heap e2.1 0 _ (Ne.symm he2ne0)]
          exact hcwf.nil0
        · intro pp q nx hq
          exact absurd (hcwf.nil0.symm.trans hq) (fun hh => DoublyLinkedList.noConfusion hh)
        · intro np q nn hq
          have hq2 : heapGetL m.heap e2.1 = DoublyLinkedList.Cons np q nn := hq
          rw [hnodeN] at hq2
          injection hq2 with h1 h2 h3
          show heapGetL (heapSet m.heap e2.1
              (DoublyLinkedList.Cons 0 e2.2 (headAddr post'))) e2.1
            = DoublyLinkedList.Cons (lastAddrD 0 ([] : List (ChainEntry K V))) q nn
          rw [heapGetL_heapSet_self m.heap e2.1 _ he2lt, ← h2, ← h3]
          rfl
  · rw [List.concat_eq_append] at hpre
    subst hpre
    have hchP := hcwf.chain
    rw [List.append_assoc] at hchP
    have hnodeP : heapGetL m.heap eP.1 =
        DoublyLinkedList.Cons (lastAddrD 0 pL) eP.2 a :=
      (chainOK_decomp pL 0 m.first_link eP ((a, k, v) :: post) hchP).1
    have hplA : lastAddrD 0 (pL ++ [eP]) = eP.1 := by
      rw [lastAddrD_append]
      rfl
    have hePne0 : eP.1 ≠ 0 := hnz eP (by simp)
    have hePlt : eP.1 < m.heap.length := heapGetL_lt_of_cons hnodeP
    cases post with
    | nil =>
        have hs2 : heapGetL (heapSet m.heap eP.1
            (DoublyLinkedList.Cons (lastAddrD 0 pL) eP.2 0)) 0 = DoublyLinkedList.Nil := by
          rw [heapGetL_heapSet_ne m.heap eP.1 0 _ (Ne.symm hePne0)]
          exact hcwf.nil0
        have hrem : m.remove k = (some v,
            { heap := heapSet m.heap eP.1 (DoublyLinkedList.Cons (lastAddrD 0 pL) eP.2 0),
              current_link := eP.1, first_link := m.first_link,
              hashmap := assocRemove m.hashmap k }) := by
          simp [LinkedHashMap.remove, hlook, hnodeR, lastAddrD, lastAddrD_append, headAddr,
            hnodeP, hs2]
        rw [hrem]
        have hframe : ∀ x, x ≠ lastAddrD 0 (pL ++ [eP]) →
            x ≠ headAddr ([] : List (ChainEntry K V)) →
            heapGetL (heapSet m.heap eP.1
              (DoublyLinkedList.Cons (lastAddrD 0 pL) eP.2 0)) x = heapGetL m.heap x := by
          intro x hx1 _
          refine heapGetL_heapSet_ne m.heap eP.1 x _ ?_
          rw [← hplA]
          exact hx1
        refine ⟨rfl, ?_, heapSet_length m.heap eP.1 _, hframe⟩
        have hfirstEq : m.first_link =
            headAddr ((pL ++ [eP]) ++ ([] : List (ChainEntry K V))) := by
          have h1 : m.first_link = headAddr ((pL ++ [eP]) ++ (a, k, v) :: []) :=
            chainOK_headAddr hcwf.chain
          rw [h1, headAddr_append (pL ++ [eP]) ((a, k, v) :: []) (by simp), List.append_nil]
        have hcurEq : eP.1 = lastAddrD 0 ((pL ++ [eP]) ++ ([] : List (ChainEntry K V))) := by
          rw [List.append_nil, hplA]
        refine WF_remove_assemble hwf (heapSet_length m.heap eP.1 _) rfl hfirstEq hcurEq
          ?_ hframe ?_ ?_
        · rw [heapGetL_heapSet_ne m.heap eP.1 0 _ (Ne.symm hePne0)]
          exact hcwf.nil0
        · intro pp q nx hq
          have hq2 : heapGetL m.heap eP.1 = DoublyLinkedList.Cons pp q nx := by
            rw [← hplA]
            exact hq
          rw [hnodeP] at hq2
          injection hq2 with h1 h2 h3
          show heapGetL (heapSet m.heap eP.1 (DoublyLinkedList.Cons (lastAddrD 0 pL) eP.2 0))
              (lastAddrD 0 (pL ++ [eP]))
            = DoublyLinkedList.Cons pp q (headAddr ([] : List (ChainEntry K V)))
          rw [hplA, heapGetL_heapSet_self m.heap eP.1 _ hePlt, h1, h2]
          rfl
        · intro np q nn hq
          exact absurd (hcwf.nil0.symm.trans hq) (fun hh => DoublyLinkedList.noConfusion hh)
    | cons e2 post' =>
        have hch3 := hcwf.chain
        rw [show (pL ++ [eP]) ++ (a, k, v) :: e2 :: post'
            = ((pL ++ [eP]) ++ [(a, k, v)]) ++ e2 :: post' from by simp] at hch3
        have hnodeN : heapGetL m.heap e2.1 =
            DoublyLinkedList.Cons a e2.2 (headAddr post') := by
          have hh := (chainOK_decomp ((pL ++ [eP]) ++ [(a, k, v)]) 0 m.first_link e2
            post' hch3).1
          rw [lastAddrD_append] at hh
          exact hh
        have he2ne0 : e2.1 ≠ 0 := hnz e2 (by simp)
        have he2lt : e2.1 < m.heap.length := heapGetL_lt_of_cons hnodeN
        have he2neP : e2.1 ≠ eP.1 := by
          refine Ne.symm (nodup_append_ne handd ?_ ?_)
          · simp
          · simp
        have hs2read : heapGetL (heapSet m.heap eP.1
            (DoublyLinkedList.Cons (lastAddrD 0 pL) eP.2 e2.1)) e2.1 =
            DoublyLinkedList.Cons a e2.2 (headAddr post') := by
          rw [heapGetL_heapSet_ne m.heap eP.1 e2.1 _ he2neP]
          exact hnodeN
        have hrem : m.remove k = (some v,
            { heap := heapSet (heapSet m.heap eP.1
                  (DoublyLinkedList.Cons (lastAddrD 0 pL) eP.2 e2.1)) e2.1
                  (DoublyLinkedList.Cons eP.1 e2.2 (headAddr post')),
              current_link := m.current_link, first_link := m.first_link,
              hashmap := assocRemove m.hashmap k }) := by
          simp [LinkedHashMap.remove, hlook, hnodeR, lastAddrD, lastAddrD_append, headAddr,
            hnodeP, hs2read]
        rw [hrem]
        have hframe : ∀ x, x ≠ lastAddrD 0 (pL ++ [eP]) → x ≠ headAddr (e2 :: post') →
            heapGetL (heapSet (heapSet m.heap eP.1
                (DoublyLinkedList.Cons (lastAddrD 0 pL) eP.2 e2.1)) e2.1
                (DoublyLinkedList.Cons eP.1 e2.2 (headAddr post'))) x
              = heapGetL m.heap x := by
          intro x hx1 hx2
          rw [heapGetL_heapSet_ne _ e2.1 x _ hx2]
          refine heapGetL_heapSet_ne m.heap eP.1 x _ ?_
          rw [← hplA]
          exact hx1
        have hlen4 : (heapSet (heapSet m.heap eP.1
            (DoublyLinkedList.Cons (lastAddrD 0 pL) eP.2 e2.1)) e2.1
            (DoublyLinkedList.Cons eP.1 e2.2 (headAddr post'))).length = m.heap.length := by
          rw [heapSet_length, heapSet_length]
        refine ⟨rfl, ?_, hlen4, hframe⟩
        have hfirstEq : m.first_link = headAddr ((pL ++ [eP]) ++ e2 :: post') := by
          have h1 : m.first_link = headAddr ((pL ++ [eP]) ++ (a, k, v) :: e2 :: post') :=
            chainOK_headAddr hcwf.chain
          rw [h1, headAddr_append (pL ++ [eP]) ((a, k, v) :: e2 :: post') (by simp),
            headAddr_append (pL ++ [eP]) (e2 :: post') (by simp)]
        have hcurEq : m.current_link = lastAddrD 0 ((pL ++ [eP]) ++ e2 :: post') := by
          rw [lastAddrD_append]
          have h0 := hcwf.current_eq
          rw [lastAddrD_append] at h0
          exact h0
        have he2lt1 : e2.1 < (heapSet m.heap eP.1
            (DoublyLinkedList.Cons (lastAddrD 0 pL) eP.2 e2.1)).length := by
          rw [heapSet_length]
          exact he2lt
        refine WF_remove_assemble hwf hlen4 rfl hfirstEq hcurEq ?_ hframe ?_ ?_
        · rw [heapGetL_heapSet_ne _ e2.1 0 _ (Ne.symm he2ne0),
            heapGetL_heapSet_ne m.heap eP.1 0 _ (Ne.symm hePne0)]
          exact hcwf.nil0
        · intro pp q nx hq
          have hq2 : heapGetL m.heap eP.1 = DoublyLinkedList.Cons pp q nx := by
            rw [← hplA]
            exact hq
          rw [hnodeP] at hq2
          injection hq2 with h1 h2 h3
          show heapGetL (heapSet (heapSet m.heap eP.1
              (DoublyLinkedList.Cons (lastAddrD 0 pL) eP.2 e2.1)) e2.1
              (DoublyLinkedList.Cons eP.1 e2.2 (headAddr post'))) (lastAddrD 0 (pL ++ [eP]))
            = DoublyLinkedList.Cons pp q (headAddr (e2 :: post'))
          rw [hplA, heapGetL_heapSet_ne _ e2.1 eP.1 _ (Ne.symm he2neP),
            heapGetL_heapSet_self m.heap eP.1 _ hePlt, h1, h2]
          rfl
        · intro np q nn hq
          have hq2 : heapGetL m.heap e2.1 = DoublyLinkedList.Cons np q nn := hq
          rw [hnodeN] at hq2
          injection hq2 with h1 h2 h3
          show heapGetL (heapSet (heapSet m.heap eP.1
              (DoublyLinkedList.Cons (lastAddrD 0 pL) eP.2 e2.1)) e2.1
              (DoublyLinkedList.Cons eP.1 e2.2 (headAddr post'))) e2.1
            = DoublyLinkedList.Cons (lastAddrD 0 (pL ++ [eP])) q nn
          have hstep : heapGetL (heapSet (heapSet m.heap eP.1
              (DoublyLinkedList.Cons (lastAddrD 0 pL) eP.2 e2.1)) e2.1
              (DoublyLinkedList.Cons eP.1 e2.2 (headAddr post'))) e2.1
            = DoublyLinkedList.Cons eP.1 e2.2 (headAddr post') :=
            heapGetL_heapSet_self _ e2.1 _ he2lt1
          rw [hstep, hplA, ← h2, ← h3]

theorem insert_hashmap {K V : Type} [DecidableEq K] (m : LinkedHashMap K V) (k : K) (v : V) :
    (m.insert k v).hashmap = assocInsert m.hashmap k m.heap.length := by
  rcases h : heapGetL m.heap m.current_link with _ | ⟨cp, cpair, ce⟩
  · rw [insert_of_nil h]
  · rw [insert_of_cons h]

theorem insert_heap_length {K V : Type} [DecidableEq K] (m : LinkedHashMap K V) (k : K) (v : V) :
    (m.insert k v).heap.length = m.heap.length + 1 := by
  rcases h : heapGetL m.heap m.current_link with _ | ⟨cp, cpair, ce⟩
  · rw [insert_of_nil h]
    simp
  · rw [insert_of_cons h]
    show (heapSet _ _ _).length = _
    rw [heapSet_length, List.length_append]
    rfl

theorem insert_IndexWF {K V : Type} [DecidableEq K] {m : LinkedHashMap K V}
    {es : List (ChainEntry K V)} (hwf : IndexWF m es) {k : K} (v : V)
    (hk : findAddr es k = none) :
    IndexWF (m.insert k v) (es ++ [(m.heap.length, k, v)]) := by
  constructor
  · rw [List.map_append, List.nodup_append]
    refine ⟨hwf.keys_nodup, by simp, ?_⟩
    intro x hx hx2
    simp only [List.map_cons, List.map_nil, List.mem_singleton] at hx2
    subst hx2
    exact findAddr_none_not_mem es x hk hx
  · intro k'
    rw [insert_hashmap]
    by_cases hkk : k' = k
    · subst hkk
      rw [assocGet_assocInsert_self, findAddr_append_none hk]
      simp [findAddr]
    · rw [assocGet_assocInsert_ne (fun hh => hkk hh.symm) m.hashmap]
      rw [hwf.lookup k']
      cases hfa : findAddr es k' with
      | some x => rw [findAddr_append_left hfa]
      | none =>
          rw [findAddr_append_none hfa]
          have hkk2 : ¬ k = k' := fun hh => hkk hh.symm
          simp [findAddr, hkk2]

theorem WF_new {K V : Type} [DecidableEq K] : WF (LinkedHashMap.new : LinkedHashMap K V) [] :=
  ⟨⟨Nat.one_pos, rfl, rfl, rfl, by simp, by simp⟩, ⟨by simp, fun k => rfl⟩⟩

theorem GInv_new {K V : Type} [DecidableEq K] : GInv (LinkedHashMap.new : LinkedHashMap K V) := by
  intro k a h
  exact absurd h (by simp [LinkedHashMap.new, assocGet])

theorem insert_WF {K V : Type} [DecidableEq K] {m : LinkedHashMap K V}
    {es : List (ChainEntry K V)} (hwf : WF m es) {k : K} (v : V)
    (hk : assocGet m.hashmap k = none) :
    WF (m.insert k v) (es ++ [(m.heap.length, k, v)]) := by
  have hfa : findAddr es k = none := by
    rw [← hwf.2.lookup k]
    exact hk
  exact ⟨insert_ChainWF hwf.1 k v, insert_IndexWF hwf.2 v hfa⟩

theorem nodup_lt_length_le {l : List Nat} {n : Nat} (hnd : l.Nodup) (hlt : ∀ x ∈ l, x < n) :
    l.length ≤ n := by
  have h1 : l.toFinset ⊆ Finset.range n := by
    intro x hx
    rw [List.mem_toFinset] at hx
    rw [Finset.mem_range]
    exact hlt x hx
  have h2 := Finset.card_le_card h1
  rw [Finset.card_range] at h2
  rw [← List.toFinset_card_of_nodup hnd]
  exact h2

theorem entries_length_le {K V : Type} {m : LinkedHashMap K V} {es : List (ChainEntry K V)}
    (hwf : ChainWF m es) : es.length ≤ m.heap.length := by
  have h1 : (es.map (fun e => e.1)).length ≤ m.heap.length := by
    refine nodup_lt_length_le hwf.addr_nodup ?_
    intro x hx
    rcases List.mem_map.mp hx with ⟨e, he, heq⟩
    rw [← heq]
    exact hwf.addr_lt e he
  rw [List.length_map] at h1
  exact h1

theorem toList_of_WF {K V : Type} {m : LinkedHashMap K V} {es : List (ChainEntry K V)}
    (hwf : ChainWF m es) : m.toList = es.map (fun e => e.2) :=
  iterFrom_of_chainOK hwf.nil0 es 0 m.first_link m.heap.length hwf.chain
    (entries_length_le hwf)

theorem pairView_heapSet {K V : Type} {h : List (DoublyLinkedList K V)} {b : Nat}
    {p : Nat} {pr : K × V} {n p2 n2 : Nat}
    (hread : heapGetL h b = DoublyLinkedList.Cons p pr n) :
    ∀ x, pairView (heapGetL (heapSet h b (DoublyLinkedList.Cons p2 pr n2)) x)
      = pairView (heapGetL h x) := by
  intro x
  by_cases hx : x = b
  · subst hx
    rw [heapGetL_heapSet_self h x _ (heapGetL_lt_of_cons hread), hread]
    rfl
  · rw [heapGetL_heapSet_ne h b x _ hx]

theorem insert_pairView {K V : Type} [DecidableEq K] {m : LinkedHashMap K V} {k : K} {v : V} :
    ∀ x, x < m.heap.length →
      pairView (heapGetL (m.insert k v).heap x) = pairView (heapGetL m.heap x) := by
  intro x hx
  rcases h : heapGetL m.heap m.current_link with _ | ⟨cp, cpair, ce⟩
  · rw [insert_of_nil h]
    exact congrArg pairView (heapGetL_append_lt m.heap _ x hx)
  · rw [insert_of_cons h]
    by_cases hxc : x = m.current_link
    · have hlt2 : m.current_link <
          (m.heap ++ [DoublyLinkedList.Cons m.current_link (k, v) ce]).length := by
        rw [List.length_append]
        have := heapGetL_lt_of_cons h
        omega
      rw [hxc, heapGetL_heapSet_self _ m.current_link _ hlt2, h]
      rfl
    · rw [heapGetL_heapSet_ne _ _ x _ hxc, heapGetL_append_lt m.heap _ x hx]

theorem remove_hashmap {K V : Type} [DecidableEq K] (m : LinkedHashMap K V) (k : K) (a : Nat)
    (hl : assocGet m.hashmap k = some a) :
    (m.remove k).2.hashmap = assocRemove m.hashmap k := by
  rcases hn : heapGetL m.heap a with _ | ⟨plN, prN, nlN⟩
  · simp [LinkedHashMap.remove, hl, hn]
  · simp [LinkedHashMap.remove, hl, hn]

theorem remove_heap_length {K V : Type} [DecidableEq K] (m : LinkedHashMap K V) (k : K) :
    (m.remove k).2.heap.length = m.heap.length := by
  rcases hl : assocGet m.hashmap k with _ | a
  · rw [remove_absent hl]
  · rcases hn : heapGetL m.heap a with _ | ⟨plN, prN, nlN⟩
    · simp [LinkedHashMap.remove, hl, hn]
    · rcases hp : heapGetL m.heap plN with _ | ⟨pp, ppair, pn⟩
      · rcases hq : heapGetL m.heap nlN with _ | ⟨np, npair, nn⟩
        · simp [LinkedHashMap.remove, hl, hn, hp, hq]
        · simp [LinkedHashMap.remove, hl, hn, hp, hq, heapSet_length]
      · rcases hq : heapGetL (heapSet m.heap plN (DoublyLinkedList.Cons pp ppair nlN)) nlN
          with _ | ⟨np, npair, nn⟩
        · simp [LinkedHashMap.remove, hl, hn, hp, hq, heapSet_length]
        · simp [LinkedHashMap.remove, hl, hn, hp, hq, heapSet_length]

theorem remove_pairView {K V : Type} [DecidableEq K] (m : LinkedHashMap K V) (k : K) (x : Nat) :
    pairView (heapGetL (m.remove k).2.heap x) = pairView (heapGetL m.heap x) := by
  rcases hl : assocGet m.hashmap k with _ | a
  · rw [remove_absent hl]
  · rcases hn : heapGetL m.heap a with _ | ⟨plN, prN, nlN⟩
    · have hh : (m.remove k).2.heap = m.heap := by
        simp [LinkedHashMap.remove, hl, hn]
      rw [hh]
    · rcases hp : heapGetL m.heap plN with _ | ⟨pp, ppair, pn⟩
      · rcases hq : heapGetL m.heap nlN with _ | ⟨np, npair, nn⟩
        · have hh : (m.remove k).2.heap = m.heap := by
            simp [LinkedHashMap.remove, hl, hn, hp, hq]
          rw [hh]
        · have hh : (m.remove k).2.heap
              = heapSet m.heap nlN (DoublyLinkedList.Cons plN npair nn) := by
            simp [LinkedHashMap.remove, hl, hn, hp, hq]
          rw [hh]
          exact pairView_heapSet hq x
      · rcases hq : heapGetL (heapSet m.heap plN (DoublyLinkedList.Cons pp ppair nlN)) nlN
          with _ | ⟨np, npair, nn⟩
        · have hh : (m.remove k).2.heap
              = heapSet m.heap plN (DoublyLinkedList.Cons pp ppair nlN) := by
            simp [LinkedHashMap.remove, hl, hn, hp, hq]
          rw [hh]
          exact pairView_heapSet hp x
        · have hh : (m.remove k).2.heap
              = heapSet (heapSet m.heap plN (DoublyLinkedList.Cons pp ppair nlN)) nlN
                (DoublyLinkedList.Cons plN npair nn) := by
            simp [LinkedHashMap.remove, hl, hn, hp, hq]
          rw [hh, pairView_heapSet hq x]
          exact pairView_heapSet hp x

theorem get_of_assoc_none {K V : Type} [DecidableEq K] {m : LinkedHashMap K V} {k : K}
    (hl : assocGet m.hashmap k = none) : m.get k = none := by
  unfold LinkedHashMap.get
  rw [hl]

theorem get_of_assoc_some {K V : Type} [DecidableEq K] {m : LinkedHashMap K V} {k : K}
    {a : Nat} (hl : assocGet m.hashmap k = some a) :
    m.get k = (pairView (heapGetL m.heap a)).map Prod.snd := by
  unfold LinkedHashMap.get
  rw [hl]
  show (match heapGetL m.heap a with
    | DoublyLinkedList.Cons _ pr _ => some pr.2
    | DoublyLinkedList.Nil => none) = (pairView (heapGetL m.heap a)).map Prod.snd
  rcases heapGetL m.heap a with _ | ⟨p, pr, n⟩
  · rfl
  · rfl

theorem get_insert_self {K V : Type} [DecidableEq K] (m : LinkedHashMap K V) (k : K) (v : V) :
    (m.insert k v).get k = some v := by
  rcases h : heapGetL m.heap m.current_link with _ | ⟨cp, cpair, ce⟩
  · rw [insert_of_nil h]
    unfold LinkedHashMap.get
    simp only [assocGet_assocInsert_self, heapGetL_append_len]
  · rw [insert_of_cons h]
    unfold LinkedHashMap.get
    simp only [assocGet_assocInsert_self]
    have hcur : m.current_link < m.heap.length := heapGetL_lt_of_cons h
    rw [heapGetL_heapSet_ne _ _ _ _ (by omega), heapGetL_append_len]

theorem get_insert_ne {K V : Type} [DecidableEq K] {m : LinkedHashMap K V} (hg : GInv m)
    {k' k : K} (hne : k' ≠ k) (v : V) : (m.insert k' v).get k = m.get k := by
  cases hl : assocGet m.hashmap k with
  | none =>
      have h1 : assocGet (m.insert k' v).hashmap k = none := by
        rw [insert_hashmap, assocGet_assocInsert_ne hne]
        exact hl
      rw [get_of_assoc_none h1, get_of_assoc_none hl]
  | some a =>
      have h1 : assocGet (m.insert k' v).hashmap k = some a := by
        rw [insert_hashmap, assocGet_assocInsert_ne hne]
        exact hl
      rw [get_of_assoc_some h1, get_of_assoc_some hl, insert_pairView a (hg k a hl)]

theorem get_remove_self {K V : Type} [DecidableEq K] (m : LinkedHashMap K V) (k : K) :
    (m.remove k).2.get k = none := by
  rcases hl : assocGet m.hashmap k with _ | a
  · rw [remove_absent hl]
    unfold LinkedHashMap.get
    rw [hl]
  · unfold LinkedHashMap.get
    rw [remove_hashmap m k a hl, assocGet_assocRemove_self]

theorem get_remove_ne {K V : Type} [DecidableEq K] (m : LinkedHashMap K V) {k' k : K}
    (hne : k' ≠ k) : (m.remove k').2.get k = m.get k := by
  rcases hl : assocGet m.hashmap k' with _ | a
  · rw [remove_absent hl]
  · cases hl2 : assocGet m.hashmap k with
    | none =>
        have h1 : assocGet (m.remove k').2.hashmap k = none := by
          rw [remove_hashmap m k' a hl, assocGet_assocRemove_ne hne m.hashmap]
          exact hl2
        rw [get_of_assoc_none h1, get_of_assoc_none hl2]
    | some b =>
        have h1 : assocGet (m.remove k').2.hashmap k = some b := by
          rw [remove_hashmap m k' a hl, assocGet_assocRemove_ne hne m.hashmap]
          exact hl2
        rw [get_of_assoc_some h1, get_of_assoc_some hl2, remove_pairView m k' b]

theorem GInv_insert {K V : Type} [DecidableEq K] {m : LinkedHashMap K V} (hg : GInv m)
    (k : K) (v : V) : GInv (m.insert k v) := by
  intro k' a h
  rw [insert_hashmap] at h
  rw [insert_heap_length]
  by_cases hk : k = k'
  · subst hk
    rw [assocGet_assocInsert_self] at h
    injection h with h2
    omega
  · rw [assocGet_assocInsert_ne hk] at h
    have := hg k' a h
    omega

theorem GInv_remove {K V : Type} [DecidableEq K] {m : LinkedHashMap K V} (hg : GInv m)
    (k : K) : GInv (m.remove k).2 := by
  intro k' a h
  rw [remove_heap_length]
  rcases hl : assocGet m.hashmap k with _ | b
  · rw [remove_absent hl] at h
    exact hg k' a h
  · rw [remove_hashmap m k b hl] at h
    by_cases hk : k = k'
    · subst hk
      rw [assocGet_assocRemove_self] at h
      exact absurd h (by simp)
    · rw [assocGet_assocRemove_ne hk] at h
      exact hg k' a h

theorem runOps_get {K V : Type} [DecidableEq K] :
    ∀ (ops : List (MapOp K V)) (m : LinkedHashMap K V) (k : K), GInv m →
      (runOps m ops).get k = histGet k ops (m.get k) := by
  intro ops
  induction ops with
  | nil => intro m k _; rfl
  | cons op rest ih =>
      intro m k hg
      cases op with
      | insert k' v =>
          show (runOps (m.insert k' v) rest).get k
            = histGet k rest (if k' = k then some v else m.get k)
          rw [ih (m.insert k' v) k (GInv_insert hg k' v)]
          by_cases hk : k' = k
          · subst hk
            rw [if_pos rfl, get_insert_self]
          · rw [if_neg hk, get_insert_ne hg hk v]
      | remove k' =>
          show (runOps (m.remove k').2 rest).get k
            = histGet k rest (if k' = k then none else m.get k)
          rw [ih (m.remove k').2 k (GInv_remove hg k')]
          by_cases hk : k' = k
          · subst hk
            rw [if_pos rfl, get_remove_self]
          · rw [if_neg hk, get_remove_ne m hk]

theorem runOps_WF {K V : Type} [DecidableEq K] :
    ∀ (ops : List (MapOp K V)) (m : LinkedHashMap K V) (es : List (ChainEntry K V)),
      WF m es → DistinctRun m ops →
      WF (runOps m ops) (ghostEntries m.heap.length es ops) := by
  intro ops
  induction ops with
  | nil => intro m es hwf _; exact hwf
  | cons op rest ih =>
      intro m es hwf hd
      cases op with
      | insert k v =>
          obtain ⟨hk, hd2⟩ := hd
          have hwf2 := insert_WF hwf v hk
          have hthis := ih (m.insert k v) (es ++ [(m.heap.length, k, v)]) hwf2 hd2
          rw [insert_heap_length] at hthis
          exact hthis
      | remove k =>
          have hd2 : DistinctRun (m.remove k).2 rest := hd
          cases hfa : findAddr es k with
          | none =>
              have hk : assocGet m.hashmap k = none := by
                rw [hwf.2.lookup k]
                exact hfa
              have hge : eraseKeyE es k = es :=
                eraseKeyE_of_not_mem es k (findAddr_none_not_mem es k hfa)
              show WF (runOps (m.remove k).2 rest)
                (ghostEntries m.heap.length (eraseKeyE es k) rest)
              rw [hge, remove_absent hk]
              exact ih m es hwf (by rw [remove_absent hk] at hd2; exact hd2)
          | some a =>
              obtain ⟨preL, v, postL, heq, hpreK⟩ := findAddr_decomp es k a hfa
              subst heq
              obtain ⟨hv, hwf2, hlen, _⟩ := remove_WF hwf
              have hkpost : k ∉ postL.map (fun e => e.2.1) := by
                have h2 := hwf.2.keys_nodup
                rw [List.map_append, List.map_cons, List.nodup_append] at h2
                exact ((List.nodup_cons).mp h2.2.1).1
              have hge : eraseKeyE (preL ++ (a, k, v) :: postL) k = preL ++ postL :=
                eraseKeyE_decomp hpreK hkpost
              show WF (runOps (m.remove k).2 rest)
                (ghostEntries m.heap.length (eraseKeyE (preL ++ (a, k, v) :: postL) k) rest)
              rw [hge, ← hlen]
              exact ih (m.remove k).2 (preL ++ postL) hwf2 hd2

theorem findAddr_isSome_iff {K V : Type} [DecidableEq K] (es : List (ChainEntry K V)) (k : K) :
    (∃ a, findAddr es k = some a) ↔ k ∈ es.map (fun e => e.2.1) := by
  constructor
  · rintro ⟨a, ha⟩
    by_contra hnot
    rw [findAddr_eq_none es k hnot] at ha
    exact Option.noConfusion ha
  · intro hmem
    cases hfa : findAddr es k with
    | some a => exact ⟨a, rfl⟩
    | none => exact absurd hmem (findAddr_none_not_mem es k hfa)

theorem filter_ne_of_not_mem {K V : Type} [DecidableEq K] :
    ∀ (l : List (ChainEntry K V)) (k : K), k ∉ l.map (fun e => e.2.1) →
      (l.map (fun e => e.2)).filter (fun p => decide (¬ p.1 = k)) = l.map (fun e => e.2) := by
  intro l
  induction l with
  | nil => intro k _; rfl
  | cons e rest ih =>
      intro k hk
      have h1 : ¬ e.2.1 = k := fun hh => hk (by simp [hh])
      have h2 : k ∉ rest.map (fun e => e.2.1) := fun hh => hk (by simp [hh])
      simp only [List.map_cons, List.filter_cons]
      rw [ih k h2]
      simp [h1]

theorem filter_pair_decomp {K V : Type} [DecidableEq K] {pre post : List (ChainEntry K V)}
    {k : K} {a : Nat} {v : V}
    (hkpre : k ∉ pre.map (fun e => e.2.1)) (hkpost : k ∉ post.map (fun e => e.2.1)) :
    ((pre ++ (a, k, v) :: post).map (fun e => e.2)).filter (fun p => decide (¬ p.1 = k))
      = (pre ++ post).map (fun e => e.2) := by
  rw [List.map_append, List.map_cons, List.filter_append, List.filter_cons,
    filter_ne_of_not_mem pre k hkpre, filter_ne_of_not_mem post k hkpost, List.map_append]
  simp

theorem headAddr_drop {K V : Type} (l : List (ChainEntry K V)) (i : Nat) (h : i < l.length) :
    headAddr (l.drop i) = l[i].1 := by
  rw [List.drop_eq_getElem_cons h]
  rfl

theorem nodup_pos_length_succ_le {l : List Nat} {n : Nat} (hnd : l.Nodup)
    (hlt : ∀ x ∈ l, x < n) (hnz : ∀ x ∈ l, x ≠ 0) (hn : 0 < n) : l.length + 1 ≤ n := by
  have h1 : l.toFinset ⊆ (Finset.range n).erase 0 := by
    intro x hx
    rw [List.mem_toFinset] at hx
    rw [Finset.mem_erase, Finset.mem_range]
    exact ⟨hnz x hx, hlt x hx⟩
  have h2 := Finset.card_le_card h1
  rw [Finset.card_erase_of_mem (by rw [Finset.mem_range]; exact hn), Finset.card_range] at h2
  rw [← List.toFinset_card_of_nodup hnd]
  omega

theorem entries_length_succ_le {K V : Type} {m : LinkedHashMap K V} {es : List (ChainEntry K V)}
    (hcwf : ChainWF m es) : es.length + 1 ≤ m.heap.length := by
  have h1 : (es.map (fun e => e.1)).length + 1 ≤ m.heap.length := by
    refine nodup_pos_length_succ_le hcwf.addr_nodup ?_ ?_ hcwf.len_pos
    · intro x hx
      rcases List.mem_map.mp hx with ⟨e, he, heq⟩
      rw [← heq]
      exact hcwf.addr_lt e he
    · intro x hx
      rcases List.mem_map.mp hx with ⟨e, he, heq⟩
      rw [← heq]
      exact chainOK_ne_zero hcwf.nil0 hcwf.chain e he
  rw [List.length_map] at h1
  exact h1

theorem insertAll_ChainWF {K V : Type} [DecidableEq K] :
    ∀ (ps : List (K × V)) (m : LinkedHashMap K V) (es : List (ChainEntry K V)),
      ChainWF m es →
      ∃ es2, ChainWF (insertAll m ps) es2 ∧
        es2.map (fun e => e.2) = es.map (fun e => e.2) ++ ps := by
  intro ps
  induction ps with
  | nil => intro m es h; exact ⟨es, h, by simp⟩
  | cons p rest ih =>
      intro m es h
      obtain ⟨k, v⟩ := p
      obtain ⟨es2, h2, hmap⟩ :=
        ih (m.insert k v) (es ++ [(m.heap.length, k, v)]) (insert_ChainWF h k v)
      refine ⟨es2, h2, ?_⟩
      rw [hmap, List.map_append]
      simp

/-- Claim C2: for every sequence of insertions with no intervening removals,
starting from `new()`, iterating the map yields exactly the inserted pairs in
insertion order. -/
theorem C2_order_preservation {K V : Type} [DecidableEq K] (ps : List (K × V)) :
    (insertAll LinkedHashMap.new ps).toList = ps := by
  obtain ⟨es2, h2, hmap⟩ := insertAll_ChainWF ps LinkedHashMap.new [] (WF_new).1
  rw [toList_of_WF h2, hmap]
  simp

/-- Claim C3: after any history of operations from `new()`, `get k` returns
exactly the last value inserted for `k` unless a later removal of `k`
intervened, and `none` when `k` is not present; `histGet` folds the history
into precisely that specification. -/
theorem C3_round_trip {K V : Type} [DecidableEq K] (ops : List (MapOp K V)) (k : K) :
    (run ops).get k = histGet k ops none :=
  runOps_get ops LinkedHashMap.new k GInv_new

/-- Claim C5: removing a key that is absent from the Index returns `none` and
performs no mutation at all: the entire state (heap, `first_link`,
`current_link`, Index) is returned unchanged. -/
theorem C5_idempotent_absence {K V : Type} [DecidableEq K] (m : LinkedHashMap K V) (k : K)
    (h : assocGet m.hashmap k = none) : m.remove k = (none, m) :=
  remove_absent h

theorem C5_idempotent_absence_witness :
    assocGet (run [MapOp.insert (K := Nat) (V := Nat) 1 10]).hashmap 2 = none ∧
    (run [MapOp.insert (K := Nat) (V := Nat) 1 10]).remove 2
      = (none, run [MapOp.insert (K := Nat) (V := Nat) 1 10]) :=
  ⟨by decide, C5_idempotent_absence _ 2 (by decide)⟩

/-- Claim C8: the concrete scenario of `main`: the six insertions iterate in
insertion order; after removing Third and Fourth iteration yields the four
remaining pairs; `get "Fifth"` is 15; draining with a live cursor removes the
four remaining keys in order; removing "Garbage" returns not-found and changes
nothing; iteration after the drain is empty. -/
theorem C8_scenario :
    demoMap.toList = [("First", 5), ("Second", 8), ("Third", 9), ("Fourth", 11),
      ("Fifth", 15), ("Sixth", 20)] ∧
    demoMap4.toList = [("First", 5), ("Second", 8), ("Fifth", 15), ("Sixth", 20)] ∧
    demoMap4.get "Fifth" = some 15 ∧
    demoDrain.1 = ["First", "Second", "Fifth", "Sixth"] ∧
    demoDrain.2.toList = [] ∧
    demoDrain.2.remove "Garbage" = (none, demoDrain.2) := by
  refine ⟨?_, ?_, ?_, ?_, ?_, ?_⟩ <;> decide

/-- Claim C1 (amended): after every sequence of insert and remove operations
starting from `new()` in which no insert uses a key present in the Index at
that moment, the keys reachable by iterating the chain are exactly the keys of
the Index, with exactly one chain node per key. -/
theorem C1_bijection_amended {K V : Type} [DecidableEq K] (ops : List (MapOp K V))
    (hd : DistinctRun LinkedHashMap.new ops) : BijectionInv (run ops) := by
  have hwf := runOps_WF ops LinkedHashMap.new [] WF_new hd
  have htl : chainKeys (run ops)
      = (ghostEntries (LinkedHashMap.new (K := K) (V := V)).heap.length [] ops).map
        (fun e => e.2.1) := by
    unfold chainKeys
    rw [show (run ops).toList = _ from toList_of_WF hwf.1, List.map_map]
    rfl
  constructor
  · intro k
    rw [htl, ← findAddr_isSome_iff]
    constructor
    · rintro ⟨x, hx⟩
      refine ⟨x, ?_⟩
      rw [show assocGet (run ops).hashmap k = _ from hwf.2.lookup k]
      exact hx
    · rintro ⟨x, hx⟩
      rw [show assocGet (run ops).hashmap k = _ from hwf.2.lookup k] at hx
      exact ⟨x, hx⟩
  · rw [htl]
    exact hwf.2.keys_nodup

theorem C1_bijection_amended_witness :
    DistinctRun (LinkedHashMap.new : LinkedHashMap Nat Nat)
      [MapOp.insert 1 10, MapOp.insert 2 20] ∧
    BijectionInv (run [MapOp.insert (K := Nat) (V := Nat) 1 10, MapOp.insert 2 20]) := by
  have hd : DistinctRun (LinkedHashMap.new : LinkedHashMap Nat Nat)
      [MapOp.insert 1 10, MapOp.insert 2 20] := ⟨rfl, rfl, trivial⟩
  exact ⟨hd, C1_bijection_amended _ hd⟩

/-- Claim C1 counterexample: after the sequence insert 1 10; insert 1 20 from
`new()`, the chain holds two nodes for the single indexed key 1, so the
claimed bijection with exactly one chain node per indexed key fails as
stated for arbitrary insert sequences. -/
theorem C1_bijection_cex :
    ¬ BijectionInv (run [MapOp.insert (K := Nat) (V := Nat) 1 10, MapOp.insert 1 20]) := by
  intro h
  have h2 := h.2
  have h3 : chainKeys (run [MapOp.insert (K := Nat) (V := Nat) 1 10, MapOp.insert 1 20])
      = [1, 1] := by decide
  rw [h3] at h2
  exact absurd h2 (by decide)

/-- Claim C9: inserting a key that is already present appends a new node that
the Index now maps to, while the old node for that key stays spliced into the
chain: iteration yields the whole old chain (old value at its original
position) followed by the new pair, the key occurs twice among the iterated
keys, and `get` returns only the new value. -/
theorem C9_duplicate_insert {K V : Type} [DecidableEq K] (m : LinkedHashMap K V)
    (es : List (ChainEntry K V)) (a : Nat) (k : K) (v v' : V)
    (hwf : WF m es) (hmem : (a, k, v) ∈ es) :
    (m.insert k v').toList = es.map (fun e => e.2) ++ [(k, v')] ∧
    (m.insert k v').get k = some v' ∧
    ((m.insert k v').toList.map Prod.fst).count k = 2 := by
  have hc := insert_ChainWF hwf.1 k v'
  have htl : (m.insert k v').toList
      = (es ++ [(m.heap.length, k, v')]).map (fun e => e.2) := toList_of_WF hc
  refine ⟨by rw [htl]; simp, get_insert_self m k v', ?_⟩
  rw [htl]
  have hkeys : ((es ++ [(m.heap.length, k, v')]).map (fun e => e.2)).map Prod.fst
      = es.map (fun e => e.2.1) ++ [k] := by
    rw [List.map_map, List.map_append]
    rfl
  rw [hkeys]
  have hkmem : k ∈ es.map (fun e => e.2.1) := List.mem_map.mpr ⟨(a, k, v), hmem, rfl⟩
  have hcnt : (es.map (fun e => e.2.1)).count k = 1 :=
    List.count_eq_one_of_mem hwf.2.keys_nodup hkmem
  rw [List.count_append, hcnt]
  have h1 : List.count k [k] = 1 := by simp
  omega

theorem C9_duplicate_insert_witness :
    WF (run [MapOp.insert (K := Nat) (V := Nat) 1 10]) [(1, 1, 10)] ∧
    ((run [MapOp.insert (K := Nat) (V := Nat) 1 10]).insert 1 20).toList = [(1, 10), (1, 20)] ∧
    ((run [MapOp.insert (K := Nat) (V := Nat) 1 10]).insert 1 20).get 1 = some 20 := by
  have hwf : WF (run [MapOp.insert (K := Nat) (V := Nat) 1 10]) [(1, 1, 10)] :=
    runOps_WF _ LinkedHashMap.new [] WF_new ⟨rfl, trivial⟩
  have h := C9_duplicate_insert _ [(1, 1, 10)] 1 1 10 20 hwf (by simp)
  exact ⟨hwf, h.1.trans (by decide), h.2.1⟩

/-- Claim C6: when the map holds exactly one entry, removing its key returns
the stored value and restores the empty state: `first_link` and
`current_link` both refer to the shared `Nil` sentinel at address 0 (not to
the removed node, whose address is nonzero), iteration is empty and the Index
is empty. -/
theorem C6_sole_removal {K V : Type} [DecidableEq K] (m : LinkedHashMap K V)
    (a : Nat) (k : K) (v : V) (hwf : WF m [(a, k, v)]) :
    (m.remove k).1 = some v ∧
    (m.remove k).2.first_link = 0 ∧
    (m.remove k).2.current_link = 0 ∧
    heapGetL (m.remove k).2.heap 0 = DoublyLinkedList.Nil ∧
    a ≠ 0 ∧
    (m.remove k).2.toList = [] ∧
    (∀ k', assocGet (m.remove k).2.hashmap k' = none) := by
  have hwf1 : WF m ([] ++ (a, k, v) :: []) := hwf
  obtain ⟨hv, hwf2, hlen, hfr⟩ := remove_WF hwf1
  have hfirst : (m.remove k).2.first_link = 0 := chainOK_headAddr hwf2.1.chain
  refine ⟨hv, hfirst, hwf2.1.current_eq, hwf2.1.nil0, ?_, ?_, ?_⟩
  · exact chainOK_ne_zero hwf.1.nil0 hwf.1.chain (a, k, v) (by simp)
  · rw [toList_of_WF hwf2.1]
    rfl
  · intro k'
    rw [hwf2.2.lookup k']
    rfl

theorem C6_sole_removal_witness :
    WF (run [MapOp.insert (K := Nat) (V := Nat) 1 10]) [(1, 1, 10)] ∧
    ((run [MapOp.insert (K := Nat) (V := Nat) 1 10]).remove 1).2.first_link = 0 ∧
    ((run [MapOp.insert (K := Nat) (V := Nat) 1 10]).remove 1).2.toList = [] := by
  have hwf : WF (run [MapOp.insert (K := Nat) (V := Nat) 1 10]) [(1, 1, 10)] :=
    runOps_WF _ LinkedHashMap.new [] WF_new ⟨rfl, trivial⟩
  have h := C6_sole_removal _ 1 1 10 hwf
  exact ⟨hwf, h.2.1, h.2.2.2.2.2.1⟩

/-- Claim C4 (amended): for every map state reached from `new()` without ever
inserting a key already present, and every key present in the map with stored
value `v`, `remove` returns `some v`, removes exactly one entry, and a
subsequent full iteration yields the remaining pairs in their original
relative order (the filter of the old iteration), with no duplicate keys. -/
theorem C4_removal_correct {K V : Type} [DecidableEq K] (ops : List (MapOp K V)) (k : K) (v : V)
    (hd : DistinctRun LinkedHashMap.new ops)
    (hget : (run ops).get k = some v) :
    ((run ops).remove k).1 = some v ∧
    (((run ops).remove k).2).toList
      = (run ops).toList.filter (fun p => decide (¬ p.1 = k)) ∧
    ((((run ops).remove k).2).toList.map Prod.fst).Nodup ∧
    (((run ops).remove k).2).toList.length + 1 = (run ops).toList.length := by
  have hwf := runOps_WF ops LinkedHashMap.new [] WF_new hd
  rcases hl : assocGet (run ops).hashmap k with _ | a
  · rw [get_of_assoc_none hl] at hget
    exact absurd hget (by simp)
  · have hfa : findAddr (ghostEntries
        (LinkedHashMap.new (K := K) (V := V)).heap.length [] ops) k = some a := by
      rw [show assocGet (run ops).hashmap k = _ from hwf.2.lookup k] at hl
      exact hl
    obtain ⟨pre, v0, post, heq, hpreK⟩ := findAddr_decomp _ k a hfa
    have hwf2 : WF (run ops) (pre ++ (a, k, v0) :: post) := by
      rw [← heq]
      exact hwf
    have hnode :=
      (chainOK_decomp pre 0 (run ops).first_link (a, k, v0) post hwf2.1.chain).1
    have hv0 : v0 = v := by
      rw [get_of_assoc_some hl, hnode] at hget
      simp [pairView] at hget
      exact hget
    subst hv0
    obtain ⟨hv, hwfR, hlen, hfr⟩ := remove_WF hwf2
    have hkpost : k ∉ post.map (fun e => e.2.1) := by
      have h2 := hwf2.2.keys_nodup
      rw [List.map_append, List.map_cons, List.nodup_append] at h2
      exact ((List.nodup_cons).mp h2.2.1).1
    refine ⟨hv, ?_, ?_, ?_⟩
    · rw [toList_of_WF hwfR.1, toList_of_WF hwf2.1, filter_pair_decomp hpreK hkpost]
    · rw [toList_of_WF hwfR.1]
      have hmm : ((pre ++ post).map (fun e => e.2)).map Prod.fst
          = (pre ++ post).map (fun e => e.2.1) := by
        rw [List.map_map]
        rfl
      rw [hmm]
      exact hwfR.2.keys_nodup
    · rw [toList_of_WF hwfR.1, toList_of_WF hwf2.1]
      simp only [List.length_map, List.length_append, List.length_cons]
      omega

theorem C4_removal_correct_witness :
    DistinctRun (LinkedHashMap.new : LinkedHashMap Nat Nat)
      [MapOp.insert 1 10, MapOp.insert 2 20] ∧
    (run [MapOp.insert (K := Nat) (V := Nat) 1 10, MapOp.insert 2 20]).get 2 = some 20 ∧
    ((run [MapOp.insert (K := Nat) (V := Nat) 1 10, MapOp.insert 2 20]).remove 2).1
      = some 20 := by
  have hd : DistinctRun (LinkedHashMap.new : LinkedHashMap Nat Nat)
      [MapOp.insert 1 10, MapOp.insert 2 20] := ⟨rfl, rfl, trivial⟩
  have hg : (run [MapOp.insert (K := Nat) (V := Nat) 1 10, MapOp.insert 2 20]).get 2
      = some 20 := by decide
  exact ⟨hd, hg, (C4_removal_correct _ 2 20 hd hg).1⟩

/-- Claim C4 counterexample: on the reachable map state produced by inserting
key 1 three times from `new()`, key 1 is present in the Index, yet after
`remove 1` a full iteration still yields key 1 twice, so the claimed
"no duplicates" property fails as stated over every map state. -/
theorem C4_removal_correct_cex :
    assocGet (run [MapOp.insert (K := Nat) (V := Nat) 1 10, MapOp.insert 1 20,
      MapOp.insert 1 30]).hashmap 1 = some 3 ∧
    ¬ ((((run [MapOp.insert (K := Nat) (V := Nat) 1 10, MapOp.insert 1 20,
      MapOp.insert 1 30]).remove 1).2).toList.map Prod.fst).Nodup := by
  refine ⟨by decide, ?_⟩
  intro h
  have h3 : (((run [MapOp.insert (K := Nat) (V := Nat) 1 10, MapOp.insert 1 20,
      MapOp.insert 1 30]).remove 1).2).toList.map Prod.fst = [1, 1] := by decide
  rw [h3] at h
  exact absurd h (by decide)

/-- Claim C7: for a live cursor that has advanced `i` steps from `iter()` and
a key whose node sits strictly later in the chain at position `j > i`,
performing the removal and then collecting the cursor yields exactly the
remaining entries from position `i` on, in order, skipping the removed node
and never yielding the removed key. -/
theorem C7_cursor_skips {K V : Type} [DecidableEq K] (m : LinkedHashMap K V)
    (es : List (ChainEntry K V)) (i j a : Nat) (k : K) (v : V)
    (hwf : WF m es) (hij : i < j) (hj : j < es.length) (hje : es[j] = (a, k, v)) :
    ((m.remove k).1 = some v) ∧
    iterFrom (m.remove k).2.heap (stepN m.heap m.first_link i) (m.remove k).2.heap.length
      = ((es.eraseIdx j).drop i).map (fun e => e.2) ∧
    (∀ p ∈ ((es.eraseIdx j).drop i).map (fun e => e.2), p.1 ≠ k) := by
  have heq : es = es.take j ++ (a, k, v) :: es.drop (j + 1) := by
    conv_lhs => rw [← List.take_append_drop j es]
    rw [List.drop_eq_getElem_cons hj, hje]
  have hwf2 : WF m (es.take j ++ (a, k, v) :: es.drop (j + 1)) := by
    rw [← heq]
    exact hwf
  obtain ⟨hv, hwfR, hlen, hfr⟩ := remove_WF hwf2
  have herase : es.eraseIdx j = es.take j ++ es.drop (j + 1) :=
    List.eraseIdx_eq_take_drop_succ es j
  have hstep : stepN m.heap m.first_link i = headAddr (es.drop i) := by
    refine stepN_of_chainOK hwf.1.nil0 es i 0 m.first_link hwf.1.chain ?_
    omega
  have hi : i < es.length := by omega
  have hia : headAddr (es.drop i) = es[i].1 := headAddr_drop es i hi
  have hlen_take : (es.take j).length = j := by
    rw [List.length_take]
    exact Nat.min_eq_left (Nat.le_of_lt hj)
  have hi2 : i < (es.take j ++ es.drop (j + 1)).length := by
    rw [List.length_append, hlen_take]
    omega
  have hia2 : headAddr ((es.take j ++ es.drop (j + 1)).drop i)
      = (es.take j ++ es.drop (j + 1))[i].1 := headAddr_drop _ i hi2
  have hgetE : (es.take j ++ es.drop (j + 1))[i] = es[i] := by
    rw [List.getElem_append_left (by rw [hlen_take]; omega)]
    exact @List.getElem_take _ es j i (by rw [hlen_take]; omega)
  obtain ⟨q, hq⟩ :=
    chainOK_drop (es.take j ++ es.drop (j + 1)) i 0 (m.remove k).2.first_link hwfR.1.chain
  have hiter : iterFrom (m.remove k).2.heap
      (headAddr ((es.take j ++ es.drop (j + 1)).drop i)) (m.remove k).2.heap.length
      = ((es.take j ++ es.drop (j + 1)).drop i).map (fun e => e.2) := by
    refine iterFrom_of_chainOK hwfR.1.nil0 _ q _ _ hq ?_
    have h1 := entries_length_le hwfR.1
    have h2 : ((es.take j ++ es.drop (j + 1)).drop i).length
        ≤ (es.take j ++ es.drop (j + 1)).length := by
      rw [List.length_drop]
      omega
    omega
  refine ⟨hv, ?_, ?_⟩
  · have haddr : headAddr ((es.take j ++ es.drop (j + 1)).drop i) = es[i].1 := by
      rw [hia2, hgetE]
    rw [hstep, hia, herase, ← haddr]
    exact hiter
  · intro p hp
    rcases List.mem_map.mp hp with ⟨e, he, hpe⟩
    have he2 : e ∈ es.take j ++ es.drop (j + 1) := by
      rw [herase] at he
      exact List.mem_of_mem_drop he
    have h2 := hwf2.2.keys_nodup
    rw [List.map_append, List.map_cons, List.nodup_append] at h2
    have hkpre : k ∉ (es.take j).map (fun e => e.2.1) := fun hh => h2.2.2 hh (by simp)
    have hkpost : k ∉ (es.drop (j + 1)).map (fun e => e.2.1) :=
      ((List.nodup_cons).mp h2.2.1).1
    rw [← hpe]
    rcases List.mem_append.mp he2 with h | h
    · exact fun hh => hkpre (List.mem_map.mpr ⟨e, h, hh⟩)
    · exact fun hh => hkpost (List.mem_map.mpr ⟨e, h, hh⟩)

theorem C7_cursor_skips_witness :
    WF (run [MapOp.insert (K := Nat) (V := Nat) 1 10, MapOp.insert 2 20, MapOp.insert 3 30])
      [(1, 1, 10), (2, 2, 20), (3, 3, 30)] ∧
    iterFrom ((run [MapOp.insert (K := Nat) (V := Nat) 1 10, MapOp.insert 2 20,
        MapOp.insert 3 30]).remove 2).2.heap
      (stepN (run [MapOp.insert (K := Nat) (V := Nat) 1 10, MapOp.insert 2 20,
          MapOp.insert 3 30]).heap
        (run [MapOp.insert (K := Nat) (V := Nat) 1 10, MapOp.insert 2 20,
          MapOp.insert 3 30]).first_link 0)
      ((run [MapOp.insert (K := Nat) (V := Nat) 1 10, MapOp.insert 2 20,
        MapOp.insert 3 30]).remove 2).2.heap.length
      = [(1, 10), (3, 30)] := by
  have hwf : WF (run [MapOp.insert (K := Nat) (V := Nat) 1 10, MapOp.insert 2 20,
      MapOp.insert 3 30]) [(1, 1, 10), (2, 2, 20), (3, 3, 30)] :=
    runOps_WF _ LinkedHashMap.new [] WF_new ⟨rfl, rfl, rfl, trivial⟩
  have h := (C7_cursor_skips _ [(1, 1, 10), (2, 2, 20), (3, 3, 30)] 0 1 2 2 20 hwf
    (by decide) (by decide) (by decide)).2.1
  exact ⟨hwf, h.trans (by decide)⟩

/-- Claim C10: removing a node never rewrites the removed node's own fields:
only the predecessor's `next`, the successor's `prev` (and the container's
`first_link`/`current_link`) change; hence a cursor standing on the removed
node still yields its pair and then continues through the remaining live
chain after it. -/
theorem C10_removed_node_frame {K V : Type} [DecidableEq K] (m : LinkedHashMap K V)
    (es : List (ChainEntry K V)) (j a : Nat) (k : K) (v : V)
    (hwf : WF m es) (hj : j < es.length) (hje : es[j] = (a, k, v)) :
    heapGetL (m.remove k).2.heap a = heapGetL m.heap a ∧
    iterFrom (m.remove k).2.heap a (m.remove k).2.heap.length
      = (k, v) :: (es.drop (j + 1)).map (fun e => e.2) ∧
    (∀ x, x ≠ lastAddrD 0 (es.take j) → x ≠ headAddr (es.drop (j + 1)) →
      heapGetL (m.remove k).2.heap x = heapGetL m.heap x) := by
  have heq : es = es.take j ++ (a, k, v) :: es.drop (j + 1) := by
    conv_lhs => rw [← List.take_append_drop j es]
    rw [List.drop_eq_getElem_cons hj, hje]
  have hwf2 : WF m (es.take j ++ (a, k, v) :: es.drop (j + 1)) := by
    rw [← heq]
    exact hwf
  obtain ⟨hv, hwfR, hlen, hfr⟩ := remove_WF hwf2
  have handd := hwf2.1.addr_nodup
  rw [List.map_append, List.map_cons] at handd
  have hns : a ∉ (es.take j).map (fun e => e.1) := by
    intro hh
    exact (nodup_append_ne handd hh (by simp)) rfl
  have hadrop : a ∉ (es.drop (j + 1)).map (fun e => e.1) :=
    ((List.nodup_cons).mp (List.nodup_append.mp handd).2.1).1
  have hane0 : a ≠ 0 :=
    chainOK_ne_zero hwf2.1.nil0 hwf2.1.chain (a, k, v) (by simp)
  have ha_pl : a ≠ lastAddrD 0 (es.take j) := by
    intro hh
    rcases List.eq_nil_or_concat (es.take j) with h0 | ⟨tL, tE, hT⟩
    · rw [h0] at hh
      exact hane0 hh
    · have hmem : lastAddrD 0 (es.take j) ∈ (es.take j).map (fun e => e.1) :=
        lastAddrD_mem _ 0 (by rw [hT, List.concat_eq_append]; simp)
      exact hns (by rw [hh]; exact hmem)
  have ha_nl : a ≠ headAddr (es.drop (j + 1)) := by
    intro hh
    cases hdk : es.drop (j + 1) with
    | nil =>
        rw [hdk] at hh
        exact hane0 hh
    | cons f dk =>
        rw [hdk] at hh
        have hmem : f.1 ∈ (es.drop (j + 1)).map (fun e => e.1) := by
          rw [hdk]
          simp
        exact hadrop (by rw [hh]; exact hmem)
  have hframeA : heapGetL (m.remove k).2.heap a = heapGetL m.heap a := hfr a ha_pl ha_nl
  refine ⟨hframeA, ?_, hfr⟩
  have hnode :=
    (chainOK_decomp (es.take j) 0 m.first_link (a, k, v) (es.drop (j + 1)) hwf2.1.chain).1
  obtain ⟨f, hf⟩ : ∃ f, (m.remove k).2.heap.length = f + 1 := by
    have hp := hwf.1.len_pos
    rw [hlen]
    exact ⟨m.heap.length - 1, by omega⟩
  rw [hf]
  have hnodeA : heapGetL (m.remove k).2.heap a
      = DoublyLinkedList.Cons (lastAddrD 0 (es.take j)) (k, v)
        (headAddr (es.drop (j + 1))) := by
    rw [hframeA]
    exact hnode
  simp only [iterFrom, hnodeA]
  congr 1
  have hlen_take : (es.take j).length = j := by
    rw [List.length_take]
    exact Nat.min_eq_left (Nat.le_of_lt hj)
  have hdropE : (es.take j ++ es.drop (j + 1)).drop j = es.drop (j + 1) := by
    have hdl := List.drop_left (es.take j) (es.drop (j + 1))
    rw [hlen_take] at hdl
    exact hdl
  obtain ⟨q, hq⟩ :=
    chainOK_drop (es.take j ++ es.drop (j + 1)) j 0 (m.remove k).2.first_link hwfR.1.chain
  rw [hdropE] at hq
  refine iterFrom_of_chainOK hwfR.1.nil0 _ q _ f hq ?_
  have h1 := entries_length_succ_le hwfR.1
  rw [hf, List.length_append, hlen_take, List.length_drop] at h1
  rw [List.length_drop]
  omega

theorem C10_removed_node_frame_witness :
    WF (run [MapOp.insert (K := Nat) (V := Nat) 1 10, MapOp.insert 2 20, MapOp.insert 3 30])
      [(1, 1, 10), (2, 2, 20), (3, 3, 30)] ∧
    iterFrom ((run [MapOp.insert (K := Nat) (V := Nat) 1 10, MapOp.insert 2 20,
        MapOp.insert 3 30]).remove 2).2.heap 2
      ((run [MapOp.insert (K := Nat) (V := Nat) 1 10, MapOp.insert 2 20,
        MapOp.insert 3 30]).remove 2).2.heap.length
      = [(2, 20), (3, 30)] := by
  have hwf : WF (run [MapOp.insert (K := Nat) (V := Nat) 1 10, MapOp.insert 2 20,
      MapOp.insert 3 30]) [(1, 1, 10), (2, 2, 20), (3, 3, 30)] :=
    runOps_WF _ LinkedHashMap.new [] WF_new ⟨rfl, rfl, rfl, trivial⟩
  have h := (C10_removed_node_frame _ [(1, 1, 10), (2, 2, 20), (3, 3, 30)] 1 2 2 20 hwf
    (by decide) (by decide)).2.1
  exact ⟨hwf, h.trans (by decide)⟩
